import Mathlib

/-!
Verification development for the incremental JSON extraction and recovery
engine of the QuAIz repository.

JavaScript strings are modelled as `List Char`.  Every definition below is a
direct shallow embedding of a TypeScript source function:

* `src/llm/utils/jsonUtils.ts` — `extractJSONFromStream`, `fixIncompleteJSON`,
  `safeParseJSON`, `extractCompleteQuestions`, `extractPartialText`;
* the stream orchestrator `executeStreamLLMRequest` (streamService /
  `BaseLLMService.executeStreamLLMRequest`);
* the quiz generation service (`addUserAnswerFields`, `parsePartialQuiz`,
  `generateQuiz`, `generateQuizStream`).

`JSON.parse` is modelled by an executable recursive-descent parser following
the JSON grammar implemented by JavaScript engines (numbers are kept as their
literal text; IEEE-754 rounding of extreme exponents is not modelled).
-/

namespace QuAIz

/-- The character set matched by the JavaScript regular-expression class `\s`
(ECMAScript WhiteSpace plus LineTerminator code points). -/
def isJsWhitespace (c : Char) : Bool :=
  c = ' ' || c = '\t' || c = '\n' || c = '\x0b' || c = '\x0c' || c = '\r' ||
  c = '\u00a0' || c = '\u1680' ||
  ('\u2000' ≤ c && c ≤ '\u200a') ||
  c = '\u2028' || c = '\u2029' || c = '\u202f' || c = '\u205f' || c = '\u3000' ||
  c = '\ufeff'

/-- `s.replace(/,\s*$/, '')`: remove one trailing comma together with the
whitespace following it.  The regular expression matches the last comma of the
string when that comma is followed only by whitespace; otherwise nothing is
replaced. -/
def stripTrailingComma (s : List Char) : List Char :=
  match s.reverse.dropWhile isJsWhitespace with
  | c :: rest => if c = ',' then rest.reverse else s
  | [] => s

/-- `s.includes(']' + closing brace)`: does `s` contain the two-character
substring `]` followed by the closing brace of an object? -/
def hasCloseSeq : List Char → Bool
  | [] => false
  | [_] => false
  | a :: b :: rest => (a = ']' && b = '}') || hasCloseSeq (b :: rest)

/-- Worker for `indexOfSub`: first index at or after `i` where `pat` occurs. -/
def indexOfSubAux (pat : List Char) : List Char → Nat → Option Nat
  | [], i => if pat.isPrefixOf ([] : List Char) then some i else none
  | s@(_ :: rest), i =>
    if pat.isPrefixOf s then some i else indexOfSubAux pat rest (i + 1)

/-- `s.indexOf(pat)`, with `none` in place of `-1`. -/
def indexOfSub (s pat : List Char) : Option Nat :=
  indexOfSubAux pat s 0

/-- The bracket-counting loop of `fixIncompleteJSON`: starting from count `k`
(`1` for the already-open `[` of the array field), scan `[` as `+1` and `]` as
`-1` and report whether the running count ever returns to zero.  On the
never-balancing path the source keeps `lastValidPos` at its initial value, so
the index recorded on the balancing path is never consumed and the scan's only
observable outcome is this Boolean. -/
def bracketBalances : List Char → Int → Bool
  | [], _ => false
  | c :: rest, k =>
    if c = '[' then bracketBalances rest (k + 1)
    else if c = ']' then
      if k - 1 = 0 then true else bracketBalances rest (k - 1)
    else bracketBalances rest k

/-- The array-closing step (step 2) of `fixIncompleteJSON`, applied to the
comma-stripped string `y`.  As in JavaScript, an absent or empty `arrayField`
is falsy and disables the step.  When the brackets after
`"arrayField": [` never re-balance, the source keeps `lastValidPos` at
`arrayStart + arrayField.length + 5` and assigns
`fixedJson.slice(0, lastValidPos + 1) + ']' + closing brace`. -/
def closeArrayField (y : List Char) (arrayField : Option (List Char)) : List Char :=
  match arrayField with
  | none => y
  | some f =>
    if f.isEmpty then y
    else
      let marker := '"' :: (f ++ ['"', ':', ' ', '['])
      match indexOfSub y marker with
      | none => y
      | some arrayStart =>
        if hasCloseSeq y then y
        else
          let afterArray := y.drop (arrayStart + f.length + 5)
          if bracketBalances afterArray 1 then y
          else y.take (arrayStart + f.length + 5 + 1) ++ [']', '}']

/-- Shallow embedding of `fixIncompleteJSON` from `src/llm/utils/jsonUtils.ts`
(the identical method body appears as `BaseLLMService.fixIncompleteJSON`). -/
def fixIncompleteJSON (jsonStr : List Char) (arrayField : Option (List Char)) : List Char :=
  closeArrayField (stripTrailingComma jsonStr) arrayField

/-- Result record of `extractJSONFromStream`. -/
structure JSONExtractionResult where
  json : Option (List Char)
  isComplete : Bool
deriving DecidableEq

/-- The brace-counting loop of `extractJSONFromStream`: index at which the
running `{`-vs-`}` count, starting from `k`, first returns to zero (the source
decrements before comparing with zero, hence the `k - 1 = 0` test over `Int`). -/
def findBraceEnd : List Char → Int → Nat → Option Nat
  | [], _, _ => none
  | c :: rest, k, i =>
    if c = '{' then findBraceEnd rest (k + 1) (i + 1)
    else if c = '}' then
      if k - 1 = 0 then some i else findBraceEnd rest (k - 1) (i + 1)
    else findBraceEnd rest k (i + 1)

/-- Shallow embedding of `extractJSONFromStream` from
`src/llm/utils/jsonUtils.ts`: drop everything before the first `{`
(`content.indexOf` followed by `content.slice`), then search for the position
where the braces balance. -/
def extractJSONFromStream (content : List Char) : JSONExtractionResult :=
  let jsonContent := content.dropWhile (fun c => c != '{')
  match jsonContent with
  | [] => ⟨none, false⟩
  | _ :: _ =>
    match findBraceEnd jsonContent 0 0 with
    | none => ⟨some jsonContent, false⟩
    | some jsonEnd => ⟨some (jsonContent.take (jsonEnd + 1)), true⟩

/-! ## Runtime JavaScript values and `JSON.parse` -/

/-- Runtime JavaScript values as produced by `JSON.parse`, extended with
`undefined`, which `JSON.parse` never returns but property access and object
spreads do.  Numeric literals are kept verbatim (their JavaScript truthiness
is decided from the digits; IEEE-754 underflow of extreme exponents is not
modelled). -/
inductive JsVal where
  | undefined
  | null
  | bool (b : Bool)
  | num (lit : List Char)
  | str (s : List Char)
  | arr (elems : List JsVal)
  | obj (fields : List (List Char × JsVal))

/-- Shorthand for string literals used as JavaScript strings. -/
def chars (s : String) : List Char := s.toList

/-- JavaScript property assignment `o[k] = v` on a field list: an existing key
keeps its position and gets the new value, a new key is appended. -/
def setField (fs : List (List Char × JsVal)) (k : List Char) (v : JsVal) :
    List (List Char × JsVal) :=
  if fs.any (fun kv => kv.1 == k) then
    fs.map (fun kv => if kv.1 == k then (k, v) else kv)
  else fs ++ [(k, v)]

/-- Field lookup on a field list (first occurrence; `setField`-built lists
have no duplicates). -/
def lookupField (fs : List (List Char × JsVal)) (k : List Char) : Option JsVal :=
  (fs.find? (fun kv => kv.1 == k)).map (fun kv => kv.2)

/-- Whitespace of the JSON grammar (what `JSON.parse` skips between tokens). -/
def isJsonWs (c : Char) : Bool :=
  c = ' ' || c = '\t' || c = '\n' || c = '\r'

/-- Decimal digit test. -/
def isDigitCh (c : Char) : Bool := '0' ≤ c && c ≤ '9'

/-- Value of a hexadecimal digit. -/
def hexVal (c : Char) : Option Nat :=
  if '0' ≤ c && c ≤ '9' then some (c.toNat - 48)
  else if 'a' ≤ c && c ≤ 'f' then some (c.toNat - 87)
  else if 'A' ≤ c && c ≤ 'F' then some (c.toNat - 55)
  else none

/-- Single-character JSON string escapes. -/
def escChar (c : Char) : Option Char :=
  if c = '"' then some '"'
  else if c = '\\' then some '\\'
  else if c = '/' then some '/'
  else if c = 'b' then some '\x08'
  else if c = 'f' then some '\x0c'
  else if c = 'n' then some '\n'
  else if c = 'r' then some '\r'
  else if c = 't' then some '\t'
  else none

/-- Body of a JSON string after the opening quote: returns the decoded
characters and the input following the closing quote.  Unescaped control
characters are rejected, `\uXXXX` escapes are decoded, surrogate pairs are
combined (a lone surrogate is rejected — a model limit, `List Char` having no
unpaired surrogates). -/
def parseStringBody : Nat → List Char → Option (List Char × List Char)
  | 0, _ => none
  | _, [] => none
  | fuel + 1, c :: rest =>
    if c = '"' then some ([], rest)
    else if c = '\\' then
      match rest with
      | [] => none
      | e :: rest2 =>
        if e = 'u' then
          match rest2 with
          | h1 :: h2 :: h3 :: h4 :: rest3 =>
            match hexVal h1, hexVal h2, hexVal h3, hexVal h4 with
            | some a, some b, some c3, some d =>
              let n := ((a * 16 + b) * 16 + c3) * 16 + d
              if 0xd800 ≤ n && n ≤ 0xdbff then
                match rest3 with
                | '\\' :: 'u' :: g1 :: g2 :: g3 :: g4 :: rest4 =>
                  match hexVal g1, hexVal g2, hexVal g3, hexVal g4 with
                  | some a2, some b2, some c2, some d2 =>
                    let m := ((a2 * 16 + b2) * 16 + c2) * 16 + d2
                    if 0xdc00 ≤ m && m ≤ 0xdfff then
                      (parseStringBody fuel rest4).map (fun p =>
                        (Char.ofNat (0x10000 + (n - 0xd800) * 0x400 + (m - 0xdc00)) :: p.1, p.2))
                    else none
                  | _, _, _, _ => none
                | _ => none
              else if 0xdc00 ≤ n && n ≤ 0xdfff then none
              else (parseStringBody fuel rest3).map (fun p => (Char.ofNat n :: p.1, p.2))
            | _, _, _, _ => none
          | _ => none
        else
          match escChar e with
          | some ch => (parseStringBody fuel rest2).map (fun p => (ch :: p.1, p.2))
          | none => none
    else if c.toNat < 0x20 then none
    else (parseStringBody fuel rest).map (fun p => (c :: p.1, p.2))

/-- Fraction part of a JSON number (empty when absent; `5.` is a parse error). -/
def parseFracPart (s : List Char) : Option (List Char × List Char) :=
  match s with
  | '.' :: r =>
    let ds := r.takeWhile isDigitCh
    if ds.isEmpty then none else some ('.' :: ds, r.dropWhile isDigitCh)
  | _ => some ([], s)

/-- Exponent part of a JSON number (empty when absent). -/
def parseExpPart (s : List Char) : Option (List Char × List Char) :=
  match s with
  | c :: r =>
    if c = 'e' || c = 'E' then
      let sgnRest : List Char × List Char :=
        match r with
        | '+' :: r3 => (['+'], r3)
        | '-' :: r3 => (['-'], r3)
        | _ => ([], r)
      let ds := sgnRest.2.takeWhile isDigitCh
      if ds.isEmpty then none
      else some (c :: sgnRest.1 ++ ds, sgnRest.2.dropWhile isDigitCh)
    else some ([], s)
  | [] => some ([], [])

/-- A JSON number literal: `-? int frac? exp?`, returned verbatim with the
rest of the input. -/
def parseNumberLit (s : List Char) : Option (List Char × List Char) := do
  let sgnRest : List Char × List Char :=
    match s with
    | '-' :: r => (['-'], r)
    | _ => ([], s)
  match sgnRest.2 with
  | [] => none
  | c :: r =>
    if ¬ isDigitCh c then none
    else
      let ipRest : List Char × List Char :=
        if c = '0' then (['0'], r)
        else (c :: r.takeWhile isDigitCh, r.dropWhile isDigitCh)
      let fp ← parseFracPart ipRest.2
      let ep ← parseExpPart fp.2
      some (sgnRest.1 ++ ipRest.1 ++ fp.1 ++ ep.1, ep.2)

mutual

/-- One JSON value (leading whitespace allowed), with the remaining input. -/
def parseValue : Nat → List Char → Option (JsVal × List Char)
  | 0, _ => none
  | fuel + 1, s =>
    match s.dropWhile isJsonWs with
    | [] => none
    | c :: r =>
      if c = '{' then
        match r.dropWhile isJsonWs with
        | '}' :: r2 => some (.obj [], r2)
        | _ => (parseMembers fuel r []).map (fun p => (JsVal.obj p.1, p.2))
      else if c = '[' then
        match r.dropWhile isJsonWs with
        | ']' :: r2 => some (.arr [], r2)
        | _ => (parseElems fuel r []).map (fun p => (JsVal.arr p.1, p.2))
      else if c = '"' then
        (parseStringBody (r.length + 1) r).map (fun p => (JsVal.str p.1, p.2))
      else if c = 't' then
        if ['r', 'u', 'e'].isPrefixOf r then some (.bool true, r.drop 3) else none
      else if c = 'f' then
        if ['a', 'l', 's', 'e'].isPrefixOf r then some (.bool false, r.drop 4) else none
      else if c = 'n' then
        if ['u', 'l', 'l'].isPrefixOf r then some (.null, r.drop 3) else none
      else
        (parseNumberLit (c :: r)).map (fun p => (JsVal.num p.1, p.2))

/-- Members of a JSON object after the opening brace (at least one member);
duplicate keys follow the `JSON.parse` rule: first position, last value. -/
def parseMembers : Nat → List Char → List (List Char × JsVal) →
    Option (List (List Char × JsVal) × List Char)
  | 0, _, _ => none
  | fuel + 1, s, acc =>
    match s.dropWhile isJsonWs with
    | '"' :: r =>
      match parseStringBody (r.length + 1) r with
      | none => none
      | some (key, r2) =>
        match r2.dropWhile isJsonWs with
        | ':' :: r3 =>
          match parseValue fuel r3 with
          | none => none
          | some (v, r4) =>
            let acc2 := setField acc key v
            match r4.dropWhile isJsonWs with
            | ',' :: r5 => parseMembers fuel r5 acc2
            | '}' :: r5 => some (acc2, r5)
            | _ => none
        | _ => none
    | _ => none

/-- Elements of a JSON array after the opening bracket (at least one element). -/
def parseElems : Nat → List Char → List JsVal → Option (List JsVal × List Char)
  | 0, _, _ => none
  | fuel + 1, s, acc =>
    match parseValue fuel s with
    | none => none
    | some (v, r) =>
      match r.dropWhile isJsonWs with
      | ',' :: r2 => parseElems fuel r2 (acc ++ [v])
      | ']' :: r2 => some (acc ++ [v], r2)
      | _ => none

end

/-- `JSON.parse(s)`: one JSON value with nothing but whitespace after it;
`none` models the thrown `SyntaxError`.  The fuel `2 * s.length + 8` exceeds
the number of recursive calls any input can make. -/
def jsonParse (s : List Char) : Option JsVal :=
  match parseValue (2 * s.length + 8) s with
  | none => none
  | some (v, rest) => if (rest.dropWhile isJsonWs).isEmpty then some v else none

/-! ## The amended C2 domain: well-formed JSON with brace-free string literals -/

/-- Raw text containing no brace character. -/
def rawOk (l : List Char) : Bool := l.all (fun c => c != '{' && c != '}')

/-- Restriction of `parseStringBody` to string literals whose raw (undecoded)
text contains no `{` or `}` character: the same scanner, except that the
consumed literal text is additionally required to be brace-free.  This carves out the
domain of the amended C2 claim; escapes such as `}` remain allowed, since
the literal's raw characters contain no brace. -/
def parseStringBodyBF (fuel : Nat) (s : List Char) : Option (List Char × List Char) :=
  match parseStringBody fuel s with
  | none => none
  | some p => if rawOk (s.take (s.length - p.2.length)) then some p else none

mutual

/-- Variant of `parseValue` with brace-free string literals (see
`parseStringBodyBF`); identical to `parseValue` otherwise. -/
def parseValueBF : Nat → List Char → Option (JsVal × List Char)
  | 0, _ => none
  | fuel + 1, s =>
    match s.dropWhile isJsonWs with
    | [] => none
    | c :: r =>
      if c = '{' then
        match r.dropWhile isJsonWs with
        | '}' :: r2 => some (.obj [], r2)
        | _ => (parseMembersBF fuel r []).map (fun p => (JsVal.obj p.1, p.2))
      else if c = '[' then
        match r.dropWhile isJsonWs with
        | ']' :: r2 => some (.arr [], r2)
        | _ => (parseElemsBF fuel r []).map (fun p => (JsVal.arr p.1, p.2))
      else if c = '"' then
        (parseStringBodyBF (r.length + 1) r).map (fun p => (JsVal.str p.1, p.2))
      else if c = 't' then
        if ['r', 'u', 'e'].isPrefixOf r then some (.bool true, r.drop 3) else none
      else if c = 'f' then
        if ['a', 'l', 's', 'e'].isPrefixOf r then some (.bool false, r.drop 4) else none
      else if c = 'n' then
        if ['u', 'l', 'l'].isPrefixOf r then some (.null, r.drop 3) else none
      else
        (parseNumberLit (c :: r)).map (fun p => (JsVal.num p.1, p.2))

/-- Variant of `parseMembers` with brace-free string literals; identical otherwise. -/
def parseMembersBF : Nat → List Char → List (List Char × JsVal) →
    Option (List (List Char × JsVal) × List Char)
  | 0, _, _ => none
  | fuel + 1, s, acc =>
    match s.dropWhile isJsonWs with
    | '"' :: r =>
      match parseStringBodyBF (r.length + 1) r with
      | none => none
      | some (key, r2) =>
        match r2.dropWhile isJsonWs with
        | ':' :: r3 =>
          match parseValueBF fuel r3 with
          | none => none
          | some (v, r4) =>
            let acc2 := setField acc key v
            match r4.dropWhile isJsonWs with
            | ',' :: r5 => parseMembersBF fuel r5 acc2
            | '}' :: r5 => some (acc2, r5)
            | _ => none
        | _ => none
    | _ => none

/-- Variant of `parseElems` with brace-free string literals; identical otherwise. -/
def parseElemsBF : Nat → List Char → List JsVal → Option (List JsVal × List Char)
  | 0, _, _ => none
  | fuel + 1, s, acc =>
    match parseValueBF fuel s with
    | none => none
    | some (v, r) =>
      match r.dropWhile isJsonWs with
      | ',' :: r2 => parseElemsBF fuel r2 (acc ++ [v])
      | ']' :: r2 => some (acc ++ [v], r2)
      | _ => none

end

/-- Restriction of `jsonParse` to documents whose string literals are
brace-free: the domain of the amended C2 claim.  `jsonParseBF s = some v` says
exactly that `s` is a well-formed JSON document (see `parseBF_spec`, which
shows `jsonParse s = some v` follows) none of whose string literals contains a
raw `{` or `}` character. -/
def jsonParseBF (s : List Char) : Option JsVal :=
  match parseValueBF (2 * s.length + 8) s with
  | none => none
  | some (v, rest) => if (rest.dropWhile isJsonWs).isEmpty then some v else none

/-- JavaScript truthiness of the values handled here (`undefined` falsy; a number
is falsy exactly when its mantissa digits are all zero: `0`, `-0`, `0.00e5`). -/
def truthy : JsVal → Bool
  | .undefined => false
  | .null => false
  | .bool b => b
  | .num lit =>
    (lit.takeWhile (fun c => c != 'e' && c != 'E')).any (fun c => isDigitCh c && c != '0')
  | .str s => !s.isEmpty
  | .arr _ => true
  | .obj _ => true

/-! ## The per-item segmenter (`extractCompleteQuestions`) -/

/-- `v.k` inside a `try` block: property access throws on a `null`/`undefined`
base (`none`), yields the field (or `undefined`) on an object, and `undefined`
on any other base for the field names used here. -/
def getField : JsVal → List Char → Option JsVal
  | .null, _ => none
  | .undefined, _ => none
  | .obj fs, k => some ((lookupField fs k).getD .undefined)
  | _, _ => some .undefined

/-- The acceptance test `question.id && question.type && question.question`
of `extractCompleteQuestions`, evaluated inside the `try`; a `TypeError`
(access on `null`) is caught by the enclosing `catch` and counts as
rejection. -/
def questionAccepted (v : JsVal) : Bool :=
  match getField v (chars "id"), getField v (chars "type"), getField v (chars "question") with
  | some a, some b, some c => truthy a && truthy b && truthy c
  | _, _, _ => false

/-- `s.slice(a, b)` for natural indices. -/
def sliceList (s : List Char) (a b : Nat) : List Char :=
  (s.drop a).take (b - a)

/-- Scanner state of the segmenter: brace depth (an `Int`, since the source
decrements a JavaScript number through zero), string-in-progress flag, pending
escape flag, and the start index of the current top-level object (`-1` when
none). -/
structure AutoState where
  braceCount : Int
  inString : Bool
  questionStart : Int
  escapeNext : Bool
deriving DecidableEq

/-- One character of the segmenter automaton at index `i`: a pending escape
consumes the character, a backslash sets the escape, a quote toggles string
state, and outside strings braces adjust the depth; `questionStart` is set
when the depth rises from zero and reset when it returns to zero. -/
def autoStep (i : Nat) (c : Char) (a : AutoState) : AutoState :=
  if a.escapeNext then { a with escapeNext := false }
  else if c = '\\' then { a with escapeNext := true }
  else
    let a1 := if c = '"' then { a with inString := !a.inString } else a
    if !a1.inString then
      if c = '{' then
        if a1.braceCount = 0 then
          { a1 with questionStart := (i : Int), braceCount := a1.braceCount + 1 }
        else { a1 with braceCount := a1.braceCount + 1 }
      else if c = '}' then
        if a1.braceCount - 1 = 0 && a1.questionStart != -1 then
          { a1 with braceCount := a1.braceCount - 1, questionStart := -1 }
        else { a1 with braceCount := a1.braceCount - 1 }
      else a1
    else a1

/-- Does the character `c` close a top-level question object in state `a`?
True exactly when the source runs its `try JSON.parse` on
`questionsContent.slice(questionStart, i + 1)`. -/
def closesQuestion (c : Char) (a : AutoState) : Bool :=
  !a.escapeNext && c = '}' && !a.inString && a.braceCount - 1 = 0 && a.questionStart != -1

/-- Full loop state of `extractCompleteQuestions`: automaton state, the
accepted questions, and `currentPos` (end of the last accepted question). -/
structure SegState where
  auto : AutoState
  complete : List JsVal
  currentPos : Nat

/-- One loop iteration of `extractCompleteQuestions` at index `i` of the
content `qc` after the `"questions": [` marker. -/
def segStep (qc : List Char) (i : Nat) (c : Char) (st : SegState) : SegState :=
  let a := st.auto
  if closesQuestion c a then
    let sub := sliceList qc a.questionStart.toNat (i + 1)
    match jsonParse sub with
    | some q =>
      if questionAccepted q then
        { auto := autoStep i c a, complete := st.complete ++ [q], currentPos := i + 1 }
      else
        { auto := autoStep i c a, complete := st.complete, currentPos := st.currentPos }
    | none => { st with auto := autoStep i c a }
  else { st with auto := autoStep i c a }

/-- The character loop of `extractCompleteQuestions`. -/
def segLoop (qc : List Char) : List Char → Nat → SegState → SegState
  | [], _, st => st
  | c :: rest, i, st => segLoop qc rest (i + 1) (segStep qc i c st)

/-- Result record of `extractCompleteQuestions`. -/
structure QuestionExtractionResult where
  completeQuestions : List JsVal
  remainingContent : List Char
  partialQuestion : Option JsVal

/-- Try to match the regular expression `"question":\s*"([^"]*)` at the head
of `s`, returning the capture. -/
def matchQuestionCapture (s : List Char) : Option (List Char) :=
  let pat := chars "\"question\":"
  if pat.isPrefixOf s then
    match (s.drop pat.length).dropWhile isJsWhitespace with
    | '"' :: tail => some (tail.takeWhile (fun c => c != '"'))
    | _ => none
  else none

/-- Leftmost match of that regular expression anywhere in `s`. -/
def findQuestionCapture : List Char → Option (List Char)
  | [] => none
  | s@(_ :: rest) =>
    match matchQuestionCapture s with
    | some cap => some cap
    | none => findQuestionCapture rest

/-- Shallow embedding of `extractPartialText`. -/
def extractPartialText (partialJson : List Char) : List Char :=
  (findQuestionCapture partialJson).getD (chars "正在生成题目...")

/-- The trailing-partial branch of `extractCompleteQuestions`: when a question
object is still open at end of buffer, repair (with no array field) and parse
it; on failure fall back to an object carrying the extracted question text. -/
def partialFromTail (qc : List Char) (questionStart : Int) : Option JsVal :=
  if questionStart != -1 then
    let partialJson := qc.drop questionStart.toNat
    match jsonParse (fixIncompleteJSON partialJson none) with
    | some v => some v
    | none => some (.obj [(chars "question", .str (extractPartialText partialJson))])
  else none

/-- Shallow embedding of `extractCompleteQuestions` from
`src/llm/utils/jsonUtils.ts`. -/
def extractCompleteQuestions (content : List Char) : QuestionExtractionResult :=
  match indexOfSub content (chars "\"questions\": [") with
  | none => ⟨[], content, none⟩
  | some questionsStart =>
    let qc := content.drop (questionsStart + 14)
    let st := segLoop qc qc 0 ⟨⟨0, false, -1, false⟩, [], 0⟩
    ⟨st.complete, qc.drop st.currentPos, partialFromTail qc st.auto.questionStart⟩

/-- Specification-side reading of the segmenter scan (spec §4.5): the
substrings consumed as one balanced top-level brace group inside the
`questions` array, collected by the same string/escape-aware automaton but
independent of any parsing or acceptance. -/
def consumedSegments (qc : List Char) : List Char → Nat → AutoState → List (List Char)
  | [], _, _ => []
  | c :: rest, i, a =>
    (if closesQuestion c a then [sliceList qc a.questionStart.toNat (i + 1)] else []) ++
    consumedSegments qc rest (i + 1) (autoStep i c a)

/-- Specification-side acceptance filter: the consumed substring is kept iff
it parses as JSON and the parsed object carries truthy `id`, `type` and
`question` fields. -/
def acceptedQuestion (s : List Char) : Option JsVal :=
  match jsonParse s with
  | some v => if questionAccepted v then some v else none
  | none => none

/-- Specification-side description of the complete-question list. -/
def specCompleteQuestions (content : List Char) : List JsVal :=
  match indexOfSub content (chars "\"questions\": [") with
  | none => []
  | some questionsStart =>
    let qc := content.drop (questionsStart + 14)
    (consumedSegments qc qc 0 ⟨0, false, -1, false⟩).filterMap acceptedQuestion

/-- The bare automaton run (the projection of `segLoop` onto `AutoState`). -/
def autoRun : List Char → Nat → AutoState → AutoState
  | [], _, a => a
  | c :: rest, i, a => autoRun rest (i + 1) (autoStep i c a)

/-- Specification-side description of the partial question: it derives only
from the trailing still-open object of the automaton run. -/
def specPartialQuestion (content : List Char) : Option JsVal :=
  match indexOfSub content (chars "\"questions\": [") with
  | none => none
  | some questionsStart =>
    let qc := content.drop (questionsStart + 14)
    partialFromTail qc (autoRun qc 0 ⟨0, false, -1, false⟩).questionStart

/-! ## The stream orchestrator (`executeStreamLLMRequest`)

The orchestrator is modelled over a pure, already-delivered list of text
increments (the claims under consideration concern the successfully
terminated stream; transport errors and cancellation are outside this model).
Progress callbacks produce no data and are omitted. -/

/-- The `ValidationResult<T>` interface.  `data` models the optional `data?: T`
field; the source tests it with `validation.isValid && validation.data`, and
since every instantiation of `T` in the repository is an object type (a quiz
or a grading result, always truthy), JavaScript truthiness of `data` coincides
with its presence. -/
structure ValidationResult (T : Type) where
  isValid : Bool
  data : Option T

/-- The orchestrator's pluggable hooks from `StreamRequestOptions<T>`
(`parsePartial`/`onProgress` only feed the progress callbacks and produce no
result data). -/
structure StreamOptions (T : Type) where
  extractJSON : List Char → JSONExtractionResult
  validateJSON : List Char → ValidationResult T

/-- The terminal stream error (the source throws
`Error` with the cannot-extract-valid-JSON message; `handleLLMError` rethrows
it wrapped, which the model does not distinguish). -/
inductive StreamError where
  | unrecoverableStream
deriving DecidableEq

/-- Mid-stream acceptance at an accumulated buffer: the candidate must be
truthy (`if (json)` — non-null and nonempty), `isComplete` must hold, and
`validation.isValid && validation.data` must hold. -/
def midAccept {T : Type} (o : StreamOptions T) (acc : List Char) : Option T :=
  match o.extractJSON acc with
  | ⟨some j, isComplete⟩ =>
    if j.isEmpty then none
    else if isComplete then
      let v := o.validateJSON j
      match v.data with
      | some d => if v.isValid then some d else none
      | none => none
    else none
  | ⟨none, _⟩ => none

/-- The end-of-stream final attempt: re-extract from the full accumulated
text — this time ignoring `isComplete` — and validate (again under the
`if (json)` truthiness guard). -/
def finalRescue {T : Type} (o : StreamOptions T) (acc : List Char) : Option T :=
  match (o.extractJSON acc).json with
  | some j =>
    if j.isEmpty then none
    else
      let v := o.validateJSON j
      match v.data with
      | some d => if v.isValid then some d else none
      | none => none
  | none => none

/-- The accumulate/extract/validate loop of `executeStreamLLMRequest`:
consume an increment, append it, stop with the validated value if a complete
candidate validates, otherwise keep consuming; at end-of-stream run the final
attempt and otherwise fail with the terminal error. -/
def streamLoop {T : Type} (o : StreamOptions T) :
    List (List Char) → List Char → Except StreamError T
  | [], acc =>
    match finalRescue o acc with
    | some d => .ok d
    | none => .error .unrecoverableStream
  | c :: rest, acc =>
    let acc2 := acc ++ c
    match midAccept o acc2 with
    | some d => .ok d
    | none => streamLoop o rest acc2

/-- `executeStreamLLMRequest` over a pure increment list. -/
def executeStreamLLMRequest {T : Type} (o : StreamOptions T)
    (chunks : List (List Char)) : Except StreamError T :=
  streamLoop o chunks []

/-- The accumulated buffers the loop observes after each increment. -/
def accums (acc : List Char) : List (List Char) → List (List Char)
  | [] => []
  | c :: rest => (acc ++ c) :: accums (acc ++ c) rest

/-! ## The quiz generation service -/

/-- A `Quiz` as built by the quiz generation service.  The header fields and
question objects are runtime JavaScript values. -/
structure Quiz where
  id : JsVal
  title : JsVal
  questions : List JsVal
  createdAt : JsVal

/-- The fields contributed by a JavaScript object spread `{...v}`: an object
spreads its fields, arrays and strings their indexed elements, primitives
nothing. -/
def spreadFields : JsVal → List (List Char × JsVal)
  | .obj fs => fs
  | .arr xs => xs.enum.map (fun p => (Nat.toDigits 10 p.1, p.2))
  | .str s => s.enum.map (fun p => (Nat.toDigits 10 p.1, JsVal.str [p.2]))
  | _ => []

/-- The per-question normalization `(q) => ({ ...q, userAnswer: undefined })`. -/
def withClearedUserAnswer (q : JsVal) : JsVal :=
  .obj (setField (spreadFields q) (chars "userAnswer") .undefined)

/-- `QuizGenerationService.addUserAnswerFields`. -/
def addUserAnswerFields (quiz : Quiz) : Quiz :=
  { quiz with questions := quiz.questions.map withClearedUserAnswer }

/-- The accept path of `generateQuiz` (non-stream): on a valid validation
outcome the quiz is normalized with `addUserAnswerFields`; otherwise the
service throws (`none`). -/
def generateQuizResult (validation : ValidationResult Quiz) : Option Quiz :=
  match validation.data with
  | some d => if validation.isValid then some (addUserAnswerFields d) else none
  | none => none

/-- The return path of `generateQuizStream`: the orchestrator's result is
normalized with `addUserAnswerFields`; orchestrator errors propagate. -/
def generateQuizStreamResult (streamOutcome : Except StreamError Quiz) :
    Except StreamError Quiz :=
  match streamOutcome with
  | .ok v => .ok (addUserAnswerFields v)
  | .error e => .error e

/-! ## The partial-value projector (`parsePartialQuiz`, `safeParseJSON`)

Throwing JavaScript operations are made explicit in `Except`, so that "an
exception escapes to the caller" is a provable (or refutable) `.error`. -/

/-- A thrown JavaScript exception (its payload is irrelevant here). -/
inductive JsErr where
  | thrown
deriving DecidableEq

/-- `JSON.parse` as a throwing operation. -/
def jsonParseE (s : List Char) : Except JsErr JsVal :=
  match jsonParse s with
  | some v => .ok v
  | none => .error .thrown

/-- Property access as a throwing operation (`TypeError` on `null` or
`undefined` bases). -/
def getFieldE (v : JsVal) (k : List Char) : Except JsErr JsVal :=
  match getField v k with
  | some x => .ok x
  | none => .error .thrown

/-- The body of `QuizGenerationService.parsePartialQuiz`
(`quizGenerationService.ts`) — everything inside its `try`: repair with the
`questions` array field, `JSON.parse`, basic validation, per-question
`userAnswer` clearing, and header defaulting (`freshId` stands for
`generateRequestId('quiz')` and `nowMs` for `Date.now()`). -/
def parsePartialQuizBody (freshId nowMs jsonStr : List Char) :
    Except JsErr (Option Quiz) := do
  let fixedJson := fixIncompleteJSON jsonStr (some (chars "questions"))
  let parsed ← jsonParseE fixedJson
  let title ← getFieldE parsed (chars "title")
  if !truthy title then pure none
  else
    let questionsV ← getFieldE parsed (chars "questions")
    match questionsV with
    | .arr qs =>
      let questionsWithAnswers := qs.map withClearedUserAnswer
      let idV ← getFieldE parsed (chars "id")
      let createdAtV ← getFieldE parsed (chars "createdAt")
      pure (some
        { id := if truthy idV then idV else .str freshId
          title := title
          questions := questionsWithAnswers
          createdAt := if truthy createdAtV then createdAtV else .num nowMs })
    | _ => pure none

/-- `parsePartialQuiz` as its caller sees it: the whole body is inside
`try`, and the `catch` turns any throw into `undefined`.  An `.error` value
here would be an exception escaping to the caller. -/
def parsePartialQuizCaller (freshId nowMs jsonStr : List Char) :
    Except JsErr (Option Quiz) :=
  match parsePartialQuizBody freshId nowMs jsonStr with
  | .ok r => .ok r
  | .error _ => .ok none

/-- The body of the legacy `QuizGenerationService.parsePartialQuiz` (the
near-duplicate service class): its inline repair (trailing comma, then close
the `questions` array when `]` + closing brace is absent) is exactly
`fixIncompleteJSON` with array field `questions`; validation requires truthy
`id`, truthy `title` and an array of questions. -/
def parsePartialQuizLegacyBody (nowMs jsonStr : List Char) :
    Except JsErr (Option Quiz) := do
  let fixedJson := fixIncompleteJSON jsonStr (some (chars "questions"))
  let parsed ← jsonParseE fixedJson
  let idV ← getFieldE parsed (chars "id")
  if !truthy idV then pure none
  else
    let titleV ← getFieldE parsed (chars "title")
    if !truthy titleV then pure none
    else
      let questionsV ← getFieldE parsed (chars "questions")
      match questionsV with
      | .arr qs =>
        let createdAtV ← getFieldE parsed (chars "createdAt")
        pure (some
          { id := idV
            title := titleV
            questions := qs.map withClearedUserAnswer
            createdAt := if truthy createdAtV then createdAtV else .num nowMs })
      | _ => pure none

/-- The legacy `parsePartialQuiz` as its caller sees it. -/
def parsePartialQuizLegacyCaller (nowMs jsonStr : List Char) :
    Except JsErr (Option Quiz) :=
  match parsePartialQuizLegacyBody nowMs jsonStr with
  | .ok r => .ok r
  | .error _ => .ok none

/-- `safeParseJSON` as its caller sees it (`null`, here `none`, on failure). -/
def safeParseJSONCaller (jsonStr : List Char) : Except JsErr (Option JsVal) :=
  match jsonParseE jsonStr with
  | .ok v => .ok (some v)
  | .error _ => .ok none

/-! ## Well-formed JSON object strings

The extraction-balance claim quantifies over well-formed JSON object strings;
these are modelled as serializations of the following JSON syntax trees. -/

mutual

/-- JSON syntax trees (with dedicated spines for arrays and objects, so that
structural recursion and induction stay elementary). -/
inductive Json where
  | jnull : Json
  | jbool (b : Bool) : Json
  | jnum (n : Int) : Json
  | jstr (s : List Char) : Json
  | jarr (xs : JsonArr) : Json
  | jobj (fs : JsonObj) : Json

/-- Array elements. -/
inductive JsonArr where
  | nil : JsonArr
  | cons (hd : Json) (tl : JsonArr) : JsonArr

/-- Object members. -/
inductive JsonObj where
  | nil : JsonObj
  | cons (key : List Char) (val : Json) (tl : JsonObj) : JsonObj

end

/-- Decimal digit character. -/
def digitChar (d : Nat) : Char :=
  if d = 0 then '0' else if d = 1 then '1' else if d = 2 then '2'
  else if d = 3 then '3' else if d = 4 then '4' else if d = 5 then '5'
  else if d = 6 then '6' else if d = 7 then '7' else if d = 8 then '8' else '9'

/-- Decimal digits of a natural number, most significant first. -/
def natDigits (n : Nat) : List Char :=
  if _h : n < 10 then [digitChar n]
  else natDigits (n / 10) ++ [digitChar (n % 10)]
decreasing_by exact Nat.div_lt_self (by omega) (by omega)

/-- Serialization of an integer. -/
def intChars (n : Int) : List Char :=
  if n < 0 then '-' :: natDigits n.natAbs else natDigits n.natAbs

/-- JSON string escaping (quote and backslash). -/
def escapeChars : List Char → List Char
  | [] => []
  | c :: rest =>
    if c = '"' || c = '\\' then '\\' :: c :: escapeChars rest
    else c :: escapeChars rest

mutual

/-- Serialization of a JSON syntax tree: the well-formed JSON strings of the
extraction-balance claim are exactly the values of this function. -/
def serialize (v : Json) : List Char :=
  match v with
  | .jnull => chars "null"
  | .jbool true => chars "true"
  | .jbool false => chars "false"
  | .jnum n => intChars n
  | .jstr s => '"' :: escapeChars s ++ ['"']
  | .jarr xs => '[' :: serializeArr xs ++ [']']
  | .jobj fs => '{' :: serializeObj fs ++ ['}']
termination_by structural v

/-- Comma-separated serialization of array elements. -/
def serializeArr (xs : JsonArr) : List Char :=
  match xs with
  | .nil => []
  | .cons x tl => serialize x ++ serializeArrTail tl
termination_by structural xs

/-- Continuation of `serializeArr`: each further element preceded by a comma. -/
def serializeArrTail (xs : JsonArr) : List Char :=
  match xs with
  | .nil => []
  | .cons x tl => ',' :: serialize x ++ serializeArrTail tl
termination_by structural xs

/-- Comma-separated serialization of object members. -/
def serializeObj (fs : JsonObj) : List Char :=
  match fs with
  | .nil => []
  | .cons k v tl =>
    '"' :: escapeChars k ++ ['"', ':'] ++ serialize v ++ serializeObjTail tl
termination_by structural fs

/-- Continuation of `serializeObj`: each further member preceded by a comma. -/
def serializeObjTail (fs : JsonObj) : List Char :=
  match fs with
  | .nil => []
  | .cons k v tl =>
    ',' :: '"' :: escapeChars k ++ ['"', ':'] ++ serialize v ++ serializeObjTail tl
termination_by structural fs

end

mutual

/-- No string literal of the tree contains a brace character. -/
def braceFree (v : Json) : Bool :=
  match v with
  | .jnull => true
  | .jbool _ => true
  | .jnum _ => true
  | .jstr s => s.all (fun c => c != '{' && c != '}')
  | .jarr xs => braceFreeArr xs
  | .jobj fs => braceFreeObj fs
termination_by structural v

/-- `braceFree` over array elements. -/
def braceFreeArr (xs : JsonArr) : Bool :=
  match xs with
  | .nil => true
  | .cons x tl => braceFree x && braceFreeArr tl
termination_by structural xs

/-- `braceFree` over object members (keys included). -/
def braceFreeObj (fs : JsonObj) : Bool :=
  match fs with
  | .nil => true
  | .cons k v tl =>
    k.all (fun c => c != '{' && c != '}') && braceFree v && braceFreeObj tl
termination_by structural fs

end

/-- Character lists whose braces are balanced and properly nested; all other
characters are unconstrained. -/
inductive Neutral : List Char → Prop
  | nil : Neutral []
  | other (c : Char) (s : List Char) : c ≠ '{' → c ≠ '}' → Neutral s →
      Neutral (c :: s)
  | wrap (s t : List Char) : Neutral s → Neutral t →
      Neutral ('{' :: s ++ '}' :: t)

/-! ## Specification-side predicates and concrete example data -/

/-- `q` is `v` with every question's `userAnswer` cleared and nothing else
changed: the header fields are preserved, and question `i` of `q` is an object
whose `userAnswer` is `undefined` and whose other fields are exactly those the
corresponding question of `v` spreads. -/
def normalizedFrom (v q : Quiz) : Prop :=
  q.id = v.id ∧ q.title = v.title ∧ q.createdAt = v.createdAt ∧
  q.questions.length = v.questions.length ∧
  ∀ i vq, v.questions.get? i = some vq →
    ∃ fs, q.questions.get? i = some (JsVal.obj fs) ∧
      lookupField fs (chars "userAnswer") = some JsVal.undefined ∧
      ∀ k2, k2 ≠ chars "userAnswer" →
        lookupField fs k2 = lookupField (spreadFields vq) k2

/-- Stream options rejecting every candidate (validation always fails). -/
def oRejectAll : StreamOptions Nat :=
  ⟨extractJSONFromStream, fun _ => ⟨false, none⟩⟩

/-- Stream options accepting any extracted candidate, reporting its length. -/
def oAcceptLen : StreamOptions Nat :=
  ⟨extractJSONFromStream, fun j => ⟨true, some j.length⟩⟩

/-- An unfinished quiz document whose `questions` array never re-balances. -/
def candC4 : List Char := chars "\x7b\"questions\": [\x7b\"id\": 1"

/-- A JSON object whose string literal contains a closing brace. -/
def objC2 : Json := .jobj (.cons (chars "a") (.jstr ['}']) .nil)

/-- A well-formed JSON object string with inter-token whitespace, a
fractional number literal with an exponent, and brace-free string literals. -/
def sC2wf : List Char := chars "\x7b \"a\": [1.5e2, true], \"b\": \"x\" \x7d"

/-- The value that `JSON.parse` yields on `sC2wf`. -/
def vC2wf : JsVal :=
  .obj [(chars "a", .arr [.num (chars "1.5e2"), .bool true]),
        (chars "b", .str (chars "x"))]

/-- A buffer with one complete question and its later extension. -/
def bC5 : List Char :=
  chars "\x7b\"questions\": [\x7b\"id\": 1, \"type\": \"sc\", \"question\": \"hi\"\x7d"

/-- Further text appended to `bC5`. -/
def tC5 : List Char := chars ", \x7b\"id\": 2\x7d]\x7d"

/-- The question object extracted from `bC5`. -/
def qC5 : JsVal :=
  .obj [(chars "id", .num ['1']), (chars "type", .str (chars "sc")),
        (chars "question", .str (chars "hi"))]

/-- A concrete quiz value. -/
def quizC8 : Quiz :=
  ⟨.str (chars "quiz-1"), .str (chars "T"),
   [.obj [(chars "id", .num ['1'])]], .num ['0']⟩

/-! # Theorems

## Repair: the trailing comma and the close-sequence gate -/

theorem isJsWhitespace_ne_rbracket {c : Char} (h : isJsWhitespace c = true) :
    c ≠ ']' := by
  intro hc; subst hc; exact absurd h (by decide)

theorem stripTrailingComma_spec (s : List Char) :
    stripTrailingComma s = s ∨
    ∃ ws, (∀ c ∈ ws, isJsWhitespace c = true) ∧
      s = stripTrailingComma s ++ ',' :: ws := by
  rcases hr : s.reverse.dropWhile isJsWhitespace with _ | ⟨c, rest⟩
  · left; unfold stripTrailingComma; rw [hr]
  · by_cases hc : c = ','
    · subst hc
      have hval : stripTrailingComma s = rest.reverse := by
        unfold stripTrailingComma; rw [hr]; simp
      right
      refine ⟨(s.reverse.takeWhile isJsWhitespace).reverse, ?_, ?_⟩
      · intro x hx
        exact List.mem_takeWhile_imp (List.mem_reverse.mp hx)
      · have key := List.takeWhile_append_dropWhile isJsWhitespace s.reverse
        rw [hr] at key
        rw [hval]
        conv_lhs => rw [← s.reverse_reverse, ← key]
        rw [List.reverse_append]
        simp
    · left; unfold stripTrailingComma; rw [hr]; simp [hc]

theorem hasCloseSeq_append_right (u t : List Char) (ht : hasCloseSeq t = false)
    (hh : ∀ c, t.head? = some c → c ≠ '}') :
    hasCloseSeq (u ++ t) = hasCloseSeq u := by
  induction u with
  | nil => simpa [hasCloseSeq] using ht
  | cons a u ih =>
    cases u with
    | nil =>
      cases t with
      | nil => rfl
      | cons b t2 =>
        have hb : b ≠ '}' := hh b rfl
        show hasCloseSeq (a :: b :: t2) = hasCloseSeq [a]
        simp [hasCloseSeq, hb, ht]
    | cons b u2 =>
      show hasCloseSeq (a :: b :: (u2 ++ t)) = hasCloseSeq (a :: b :: u2)
      have ih2 : hasCloseSeq (b :: (u2 ++ t)) = hasCloseSeq (b :: u2) := ih
      simp [hasCloseSeq, ih2]

theorem hasCloseSeq_all_not_rbracket (t : List Char) (h : ∀ c ∈ t, c ≠ ']') :
    hasCloseSeq t = false := by
  induction t with
  | nil => rfl
  | cons a t ih =>
    cases t with
    | nil => rfl
    | cons b t2 =>
      have ha : a ≠ ']' := h a (by simp)
      have ht2 : hasCloseSeq (b :: t2) = false :=
        ih (fun c hc => h c (List.mem_cons_of_mem a hc))
      simp [hasCloseSeq, ha, ht2]

theorem hasCloseSeq_snoc_close (w : List Char) :
    hasCloseSeq (w ++ [']', '}']) = true := by
  induction w with
  | nil => rfl
  | cons a w ih =>
    cases w with
    | nil =>
      show hasCloseSeq (a :: [']', '}']) = true
      have h2 : hasCloseSeq [']', '}'] = true := rfl
      simp [hasCloseSeq, h2]
    | cons b w2 =>
      show hasCloseSeq (a :: b :: (w2 ++ [']', '}'])) = true
      have ih2 : hasCloseSeq (b :: (w2 ++ [']', '}'])) = true := ih
      simp [hasCloseSeq, ih2]

theorem closeArrayField_of_hasCloseSeq (y : List Char) (a : Option (List Char))
    (h : hasCloseSeq y = true) : closeArrayField y a = y := by
  unfold closeArrayField
  cases a with
  | none => rfl
  | some f =>
    by_cases hemp : f.isEmpty
    · simp [hemp]
    · rcases hidx : indexOfSub y ('"' :: (f ++ ['"', ':', ' ', '['])) with _ | j
      · simp [hemp, hidx]
      · simp [hemp, hidx, h]

theorem closeArrayField_cases (y : List Char) (a : Option (List Char)) :
    closeArrayField y a = y ∨ ∃ w, closeArrayField y a = w ++ [']', '}'] := by
  unfold closeArrayField
  cases a with
  | none => exact Or.inl rfl
  | some f =>
    by_cases hemp : f.isEmpty
    · simp [hemp]
    · rcases hidx : indexOfSub y ('"' :: (f ++ ['"', ':', ' ', '['])) with _ | j
      · simp [hemp, hidx]
      · by_cases hcs : hasCloseSeq y
        · simp [hemp, hidx, hcs]
        · by_cases hbb : bracketBalances (y.drop (j + f.length + 5)) 1
          · simp [hemp, hidx, hcs, hbb]
          · right
            exact ⟨y.take (j + f.length + 5 + 1), by simp [hemp, hidx, hcs, hbb]⟩

theorem stripTrailingComma_snoc_close (w : List Char) :
    stripTrailingComma (w ++ [']', '}']) = w ++ [']', '}'] := by
  unfold stripTrailingComma
  rw [List.reverse_append]
  have hws : isJsWhitespace '}' = false := by decide
  have hc : ('}' : Char) ≠ ',' := by decide
  simp [List.dropWhile, hws, hc]

theorem hasCloseSeq_stripTrailingComma (s : List Char) (h : hasCloseSeq s = true) :
    hasCloseSeq (stripTrailingComma s) = true := by
  rcases stripTrailingComma_spec s with he | ⟨ws, hws, he⟩
  · rw [he]; exact h
  · have ht : hasCloseSeq (',' :: ws) = false := by
      apply hasCloseSeq_all_not_rbracket
      intro c hc
      rcases List.mem_cons.mp hc with rfl | hmem
      · decide
      · exact isJsWhitespace_ne_rbracket (hws c hmem)
    have hh : ∀ c, (',' :: ws).head? = some c → c ≠ '}' := by
      intro c hc
      injection hc with hc
      subst hc; decide
    have happ := hasCloseSeq_append_right (stripTrailingComma s) (',' :: ws) ht hh
    rw [he] at h
    rw [happ] at h
    exact h

/-- C10: the array-closing branch of `fixIncompleteJSON` is gated on the
absence of the two-character substring `]` + `}`; an input containing it
anywhere is returned with only one trailing comma (and trailing whitespace)
removed, whatever the array field and however unbalanced it is. -/
theorem repair_close_gate (s : List Char) (a : Option (List Char))
    (h : hasCloseSeq s = true) :
    fixIncompleteJSON s a = stripTrailingComma s := by
  unfold fixIncompleteJSON
  exact closeArrayField_of_hasCloseSeq _ _ (hasCloseSeq_stripTrailingComma s h)

theorem repair_close_gate_witness :
    hasCloseSeq (chars "\x7b\"questions\": [\x7b\"a\": [1]\x7d],") = true ∧
    fixIncompleteJSON (chars "\x7b\"questions\": [\x7b\"a\": [1]\x7d],")
        (some (chars "questions")) =
      stripTrailingComma (chars "\x7b\"questions\": [\x7b\"a\": [1]\x7d],") :=
  ⟨by decide, repair_close_gate _ _ (by decide)⟩

/-! ## Repair idempotence (C3) -/

/-- C3 counterexample: on an input ending in two commas the comma-stripping
step removes one comma per application, so the repair is not idempotent
(`,,` ↦ `,` ↦ ``). -/
theorem repair_idempotence_cex :
    fixIncompleteJSON (fixIncompleteJSON [',', ','] none) none ≠
      fixIncompleteJSON [',', ','] none := by decide

/-- C3 (amended): the repair is idempotent on every input on which the
comma-stripping step is idempotent — equivalently, on inputs that do not end
in two or more commas separated only by whitespace; the counterexample above
is exactly an input whose comma-strip is not idempotent. -/
theorem repair_idempotent_of_comma_stable (x : List Char) (a : Option (List Char))
    (h : stripTrailingComma (stripTrailingComma x) = stripTrailingComma x) :
    fixIncompleteJSON (fixIncompleteJSON x a) a = fixIncompleteJSON x a := by
  have hfx : fixIncompleteJSON x a = closeArrayField (stripTrailingComma x) a := rfl
  rcases closeArrayField_cases (stripTrailingComma x) a with hcase | ⟨w, hcase⟩
  · rw [hfx, hcase]
    show closeArrayField (stripTrailingComma (stripTrailingComma x)) a = _
    rw [h, hcase]
  · rw [hfx, hcase]
    show closeArrayField (stripTrailingComma (w ++ [']', '}'])) a = _
    rw [stripTrailingComma_snoc_close]
    exact closeArrayField_of_hasCloseSeq _ _ (hasCloseSeq_snoc_close w)

theorem repair_idempotent_witness :
    stripTrailingComma (stripTrailingComma (chars "\x7b\"a\": 1,")) =
      stripTrailingComma (chars "\x7b\"a\": 1,") ∧
    fixIncompleteJSON (fixIncompleteJSON (chars "\x7b\"a\": 1,") none) none =
      fixIncompleteJSON (chars "\x7b\"a\": 1,") none :=
  ⟨by decide, repair_idempotent_of_comma_stable _ _ (by decide)⟩

/-! ## Repair array-closing (C4) -/

/-- C4 counterexample: on a candidate whose `questions` array never
re-balances, `fixIncompleteJSON` does not append the missing `]` and `}` to
the candidate — it truncates everything after the first character past the
array's `[` and appends a single `]` + `}`. -/
theorem repair_array_closing_cex :
    fixIncompleteJSON candC4 (some (chars "questions")) =
      chars "\x7b\"questions\": [\x7b]\x7d" ∧
    fixIncompleteJSON candC4 (some (chars "questions")) ≠ candC4 ++ [']', '}'] := by
  constructor
  · decide
  · decide

/-- C4 (amended): when `arrayField` is given (nonempty), its marker occurs at
first index `i` of the comma-stripped candidate, no `]` + `}` substring is
present, and the brackets after the marker never re-balance, the repair
returns the comma-stripped candidate truncated to one character past the
array's `[` (position `i + arrayField.length + 6`), with a single `]` + `}`
appended — it does not preserve the candidate and appends one `]` regardless
of how many `[` are unclosed. -/
theorem repair_array_truncates (x f : List Char) (i : Nat)
    (hf : ¬ f.isEmpty)
    (hidx : indexOfSub (stripTrailingComma x) ('"' :: (f ++ ['"', ':', ' ', '['])) =
      some i)
    (hgate : hasCloseSeq (stripTrailingComma x) = false)
    (hbal : bracketBalances ((stripTrailingComma x).drop (i + f.length + 5)) 1 = false) :
    fixIncompleteJSON x (some f) =
      (stripTrailingComma x).take (i + f.length + 6) ++ [']', '}'] := by
  show closeArrayField (stripTrailingComma x) (some f) = _
  unfold closeArrayField
  simp only [hf, hidx, hgate, hbal]
  have harith : i + f.length + 5 + 1 = i + f.length + 6 := by omega
  simp [harith]

theorem repair_array_truncates_witness :
    fixIncompleteJSON candC4 (some (chars "questions")) =
      (stripTrailingComma candC4).take (1 + (chars "questions").length + 6) ++
        [']', '}'] :=
  repair_array_truncates candC4 (chars "questions") 1 (by decide) (by decide)
    (by decide) (by decide)

/-! ## Extraction balance (C2) -/

theorem Neutral.append {s t : List Char} (hs : Neutral s) (ht : Neutral t) :
    Neutral (s ++ t) := by
  induction hs with
  | nil => exact ht
  | other c s hc1 hc2 _ ih => exact Neutral.other c _ hc1 hc2 ih
  | wrap s u hns _ _ ihu =>
    have hshape : ('{' :: s ++ '}' :: u) ++ t = '{' :: s ++ '}' :: (u ++ t) := by
      simp
    rw [hshape]
    exact Neutral.wrap s (u ++ t) hns ihu

theorem neutral_of_all_ne (l : List Char)
    (h : l.all (fun c => c != '{' && c != '}') = true) : Neutral l := by
  induction l with
  | nil => exact Neutral.nil
  | cons a l ih =>
    rw [List.all_cons, Bool.and_eq_true] at h
    obtain ⟨ha, hl⟩ := h
    rw [Bool.and_eq_true, bne_iff_ne, bne_iff_ne] at ha
    exact Neutral.other a l ha.1 ha.2 (ih hl)

theorem escapeChars_all (p : Char → Bool) (hq : p '\\' = true) (s : List Char)
    (h : s.all p = true) : (escapeChars s).all p = true := by
  induction s with
  | nil => rfl
  | cons c s ih =>
    rw [List.all_cons, Bool.and_eq_true] at h
    unfold escapeChars
    split
    · simp [List.all_cons, hq, h.1, ih h.2]
    · simp [List.all_cons, h.1, ih h.2]

theorem digitChar_not_brace (d : Nat) :
    (digitChar d != '{' && digitChar d != '}') = true := by
  unfold digitChar
  split_ifs <;> decide

theorem natDigits_all (p : Char → Bool) (hp : ∀ d, p (digitChar d) = true) :
    ∀ n, (natDigits n).all p = true := by
  intro n
  induction n using Nat.strong_induction_on with
  | _ n ih =>
    unfold natDigits
    split
    · simp [hp]
    · rw [List.all_append]
      have h1 := ih (n / 10) (Nat.div_lt_self (by omega) (by omega))
      simp [h1, hp]

theorem intChars_all (p : Char → Bool) (hp : ∀ d, p (digitChar d) = true)
    (hm : p '-' = true) (n : Int) : (intChars n).all p = true := by
  unfold intChars
  split
  · simp [List.all_cons, hm, natDigits_all p hp n.natAbs]
  · exact natDigits_all p hp n.natAbs

mutual

theorem serialize_neutral : ∀ v : Json, braceFree v = true → Neutral (serialize v)
  | .jnull, _ => neutral_of_all_ne _ (by decide)
  | .jbool true, _ => neutral_of_all_ne _ (by decide)
  | .jbool false, _ => neutral_of_all_ne _ (by decide)
  | .jnum n, _ =>
    neutral_of_all_ne _ (intChars_all _ digitChar_not_brace (by decide) n)
  | .jstr s, h =>
    neutral_of_all_ne _ (by
      have hs : s.all (fun c => c != '{' && c != '}') = true := h
      have he := escapeChars_all _ (by decide) s hs
      show (('"' :: escapeChars s ++ ['"']).all fun c => c != '{' && c != '}') = true
      simp only [List.all_cons, List.all_append, he]
      decide)
  | .jarr xs, h =>
    Neutral.other '[' _ (by decide) (by decide)
      (Neutral.append (serializeArr_neutral xs h) (neutral_of_all_ne _ (by decide)))
  | .jobj fs, h =>
    Neutral.wrap (serializeObj fs) [] (serializeObj_neutral fs h) Neutral.nil

theorem serializeArr_neutral : ∀ xs : JsonArr, braceFreeArr xs = true →
    Neutral (serializeArr xs)
  | .nil, _ => Neutral.nil
  | .cons x tl, h =>
    have h12 : braceFree x = true ∧ braceFreeArr tl = true := by
      simpa [braceFreeArr] using h
    Neutral.append (serialize_neutral x h12.1) (serializeArrTail_neutral tl h12.2)

theorem serializeArrTail_neutral : ∀ xs : JsonArr, braceFreeArr xs = true →
    Neutral (serializeArrTail xs)
  | .nil, _ => Neutral.nil
  | .cons x tl, h =>
    have h12 : braceFree x = true ∧ braceFreeArr tl = true := by
      simpa [braceFreeArr] using h
    Neutral.other ',' _ (by decide) (by decide)
      (Neutral.append (serialize_neutral x h12.1) (serializeArrTail_neutral tl h12.2))

theorem serializeObj_neutral : ∀ fs : JsonObj, braceFreeObj fs = true →
    Neutral (serializeObj fs)
  | .nil, _ => Neutral.nil
  | .cons k v tl, h =>
    have h12 : k.all (fun c => c != '{' && c != '}') = true ∧ braceFree v = true ∧
        braceFreeObj tl = true := by
      simpa [braceFreeObj, and_assoc] using h
    have hA : Neutral ('"' :: escapeChars k ++ ['"', ':']) :=
      neutral_of_all_ne _ (by
        simp [List.all_cons, List.all_append,
          escapeChars_all _ (by decide) k h12.1])
    have hB : Neutral (serialize v ++ serializeObjTail tl) :=
      Neutral.append (serialize_neutral v h12.2.1) (serializeObjTail_neutral tl h12.2.2)
    by
      show Neutral ('"' :: escapeChars k ++ ['"', ':'] ++ serialize v ++ serializeObjTail tl)
      simpa [List.append_assoc] using Neutral.append hA hB

theorem serializeObjTail_neutral : ∀ fs : JsonObj, braceFreeObj fs = true →
    Neutral (serializeObjTail fs)
  | .nil, _ => Neutral.nil
  | .cons k v tl, h =>
    have h12 : k.all (fun c => c != '{' && c != '}') = true ∧ braceFree v = true ∧
        braceFreeObj tl = true := by
      simpa [braceFreeObj, and_assoc] using h
    have hA : Neutral (',' :: '"' :: escapeChars k ++ ['"', ':']) :=
      neutral_of_all_ne _ (by
        simp [List.all_cons, List.all_append,
          escapeChars_all _ (by decide) k h12.1])
    have hB : Neutral (serialize v ++ serializeObjTail tl) :=
      Neutral.append (serialize_neutral v h12.2.1) (serializeObjTail_neutral tl h12.2.2)
    by
      show Neutral
        (',' :: '"' :: escapeChars k ++ ['"', ':'] ++ serialize v ++ serializeObjTail tl)
      simpa [List.append_assoc] using Neutral.append hA hB

end

theorem findBraceEnd_lbrace (rest : List Char) (k : Int) (i : Nat) :
    findBraceEnd ('{' :: rest) k i = findBraceEnd rest (k + 1) (i + 1) := by
  simp [findBraceEnd]

theorem findBraceEnd_rbrace (rest : List Char) (k : Int) (i : Nat) :
    findBraceEnd ('}' :: rest) k i =
      if k - 1 = 0 then some i else findBraceEnd rest (k - 1) (i + 1) := by
  simp only [findBraceEnd]
  rw [if_neg (by decide : ¬('}' : Char) = '{')]
  simp

theorem findBraceEnd_other (c : Char) (rest : List Char) (k : Int) (i : Nat)
    (hc1 : c ≠ '{') (hc2 : c ≠ '}') :
    findBraceEnd (c :: rest) k i = findBraceEnd rest k (i + 1) := by
  simp only [findBraceEnd]
  rw [if_neg hc1, if_neg hc2]

theorem findBraceEnd_skip {m : List Char} (hm : Neutral m) :
    ∀ (rest : List Char) (k : Int) (i : Nat), 1 ≤ k →
      findBraceEnd (m ++ rest) k i = findBraceEnd rest k (i + m.length) := by
  induction hm with
  | nil => intro rest k i _; simp
  | other c s hc1 hc2 _ ih =>
    intro rest k i hk
    show findBraceEnd (c :: (s ++ rest)) k i = _
    rw [findBraceEnd_other c _ k i hc1 hc2, ih rest k (i + 1) hk]
    rw [show i + 1 + s.length = i + (c :: s).length from by
      simp [List.length_cons]; omega]
  | wrap s t _ _ ihs iht =>
    intro rest k i hk
    have hshape : ('{' :: s ++ '}' :: t) ++ rest = '{' :: (s ++ '}' :: (t ++ rest)) := by
      simp
    rw [hshape, findBraceEnd_lbrace, ihs ('}' :: (t ++ rest)) (k + 1) (i + 1) (by omega),
      findBraceEnd_rbrace, if_neg (by omega : ¬(k + 1 - 1 = 0))]
    have hk1 : k + 1 - 1 = k := by omega
    rw [hk1, iht rest k (i + 1 + s.length + 1) hk]
    rw [show i + 1 + s.length + 1 + t.length = i + ('{' :: s ++ '}' :: t).length from by
      simp [List.length_cons, List.length_append]; omega]

theorem extractJSONFromStream_cons_brace (l : List Char) :
    extractJSONFromStream ('{' :: l) =
      (match findBraceEnd ('{' :: l) 0 0 with
       | none => ⟨some ('{' :: l), false⟩
       | some jsonEnd => ⟨some (('{' :: l).take (jsonEnd + 1)), true⟩) := by
  unfold extractJSONFromStream
  have hdrop : ('{' :: l).dropWhile (fun c => c != '{') = '{' :: l := by
    simp [List.dropWhile_cons]
  rw [hdrop]

theorem isJsonWs_ne_brace {c : Char} (h : isJsonWs c = true) : c ≠ '{' ∧ c ≠ '}' := by
  simp [isJsonWs] at h
  rcases h with ((h | h) | h) | h <;> subst h <;> exact ⟨by decide, by decide⟩

theorem isDigitCh_ne_brace {c : Char} (h : isDigitCh c = true) : c ≠ '{' ∧ c ≠ '}' := by
  simp [isDigitCh] at h
  constructor <;> rintro rfl <;> revert h <;> decide

theorem rawOk_of_forall {l : List Char} (h : ∀ c ∈ l, c ≠ '{' ∧ c ≠ '}') :
    rawOk l = true := by
  rw [rawOk, List.all_eq_true]
  intro c hc
  obtain ⟨h1, h2⟩ := h c hc
  simp [h1, h2]

theorem takeWhile_ws_rawOk (s : List Char) : rawOk (s.takeWhile isJsonWs) = true :=
  rawOk_of_forall (fun _ hc => isJsonWs_ne_brace (List.mem_takeWhile_imp hc))

theorem neutral_of_rawOk {l : List Char} (h : rawOk l = true) : Neutral l :=
  neutral_of_all_ne l h

theorem rawOk_append {a b : List Char} (ha : rawOk a = true) (hb : rawOk b = true) :
    rawOk (a ++ b) = true := by
  rw [rawOk, List.all_append]
  rw [rawOk] at ha hb
  simp [ha, hb]

theorem rawOk_cons {c : Char} {l : List Char} (h1 : c ≠ '{') (h2 : c ≠ '}')
    (h : rawOk l = true) : rawOk (c :: l) = true := by
  rw [rawOk, List.all_cons]
  rw [rawOk] at h
  simp [h1, h2, h]

theorem ws_decomp (s : List Char) : s = s.takeWhile isJsonWs ++ s.dropWhile isJsonWs :=
  (List.takeWhile_append_dropWhile isJsonWs s).symm

theorem isPrefixOf_decomp {pre r : List Char} (h : pre.isPrefixOf r = true) :
    r = pre ++ r.drop pre.length := by
  rw [List.isPrefixOf_iff_prefix] at h
  obtain ⟨t, ht⟩ := h
  rw [← ht, List.drop_left]

theorem parseFracPart_consumed (s f r : List Char) (h : parseFracPart s = some (f, r)) :
    s = f ++ r ∧ rawOk f = true := by
  simp only [parseFracPart] at h
  split at h
  · rename_i r0
    split at h
    · exact absurd h (by simp)
    · simp only [Option.some.injEq, Prod.mk.injEq] at h
      obtain ⟨hf, hr⟩ := h
      subst hf; subst hr
      constructor
      · simp [List.takeWhile_append_dropWhile]
      · exact rawOk_cons (by decide) (by decide)
          (rawOk_of_forall (fun _ hc => isDigitCh_ne_brace (List.mem_takeWhile_imp hc)))
  · simp only [Option.some.injEq, Prod.mk.injEq] at h
    obtain ⟨hf, hr⟩ := h
    subst hf; subst hr
    exact ⟨rfl, rfl⟩

theorem parseStringBody_consumed :
    ∀ (fuel : Nat) (s str rest : List Char),
      parseStringBody fuel s = some (str, rest) → ∃ c, s = c ++ rest := by
  intro fuel
  induction fuel with
  | zero => intro s str rest h; simp [parseStringBody] at h
  | succ fuel ih =>
    intro s str rest h
    rcases s with _ | ⟨c, s1⟩
    · simp [parseStringBody] at h
    · simp only [parseStringBody] at h
      split at h
      · simp only [Option.some.injEq, Prod.mk.injEq] at h
        exact ⟨[c], by rw [h.2]; rfl⟩
      · split at h
        · split at h
          · exact absurd h (by simp)
          · rename_i e rest2
            split at h
            · split at h
              · rename_i h1 h2 h3 h4 rest3
                split at h
                · split at h
                  · split at h
                    · rename_i g1 g2 g3 g4 rest4
                      split at h
                      · split at h
                        · rw [Option.map_eq_some'] at h
                          obtain ⟨⟨s0, r0⟩, hrec, hpr⟩ := h
                          obtain ⟨c0, hc0⟩ := ih rest4 s0 r0 hrec
                          simp only [Prod.mk.injEq] at hpr
                          refine ⟨c :: e :: h1 :: h2 :: h3 :: h4 ::
                            '\\' :: 'u' :: g1 :: g2 :: g3 :: g4 :: c0, ?_⟩
                          rw [hc0, ← hpr.2]
                          simp
                        · exact absurd h (by simp)
                      · exact absurd h (by simp)
                    · exact absurd h (by simp)
                  · split at h
                    · exact absurd h (by simp)
                    · rw [Option.map_eq_some'] at h
                      obtain ⟨⟨s0, r0⟩, hrec, hpr⟩ := h
                      obtain ⟨c0, hc0⟩ := ih rest3 s0 r0 hrec
                      simp only [Prod.mk.injEq] at hpr
                      refine ⟨c :: e :: h1 :: h2 :: h3 :: h4 :: c0, ?_⟩
                      rw [hc0, ← hpr.2]
                      simp
                · exact absurd h (by simp)
              · exact absurd h (by simp)
            · split at h
              · rw [Option.map_eq_some'] at h
                obtain ⟨⟨s0, r0⟩, hrec, hpr⟩ := h
                obtain ⟨c0, hc0⟩ := ih rest2 s0 r0 hrec
                simp only [Prod.mk.injEq] at hpr
                refine ⟨c :: e :: c0, ?_⟩
                rw [hc0, ← hpr.2]
                simp
              · exact absurd h (by simp)
        · split at h
          · exact absurd h (by simp)
          · rw [Option.map_eq_some'] at h
            obtain ⟨⟨s0, r0⟩, hrec, hpr⟩ := h
            obtain ⟨c0, hc0⟩ := ih s1 s0 r0 hrec
            simp only [Prod.mk.injEq] at hpr
            refine ⟨c :: c0, ?_⟩
            rw [hc0, ← hpr.2]
            simp

theorem parseExpPart_consumed (s f r : List Char) (h : parseExpPart s = some (f, r)) :
    s = f ++ r ∧ rawOk f = true := by
  simp only [parseExpPart] at h
  split at h
  · rename_i c r0
    split at h
    · rename_i hcE
      have hcne : c ≠ '{' ∧ c ≠ '}' := by
        simp at hcE
        rcases hcE with h1 | h1 <;> subst h1 <;> exact ⟨by decide, by decide⟩
      split at h
      · exact absurd h (by simp)
      · simp only [Option.some.injEq, Prod.mk.injEq] at h
        obtain ⟨hf, hr⟩ := h
        subst hf; subst hr
        split
        · rename_i r3
          constructor
          · simp [List.takeWhile_append_dropWhile]
          · refine rawOk_cons hcne.1 hcne.2 (rawOk_append (by simp [rawOk]) ?_)
            exact rawOk_of_forall
              (fun _ hc => isDigitCh_ne_brace (List.mem_takeWhile_imp hc))
        · rename_i r3
          constructor
          · simp [List.takeWhile_append_dropWhile]
          · refine rawOk_cons hcne.1 hcne.2 (rawOk_append (by simp [rawOk]) ?_)
            exact rawOk_of_forall
              (fun _ hc => isDigitCh_ne_brace (List.mem_takeWhile_imp hc))
        · constructor
          · simp [List.takeWhile_append_dropWhile]
          · refine rawOk_cons hcne.1 hcne.2 (rawOk_append (by simp [rawOk]) ?_)
            exact rawOk_of_forall
              (fun _ hc => isDigitCh_ne_brace (List.mem_takeWhile_imp hc))
    · simp only [Option.some.injEq, Prod.mk.injEq] at h
      obtain ⟨hf, hr⟩ := h
      subst hf; subst hr
      exact ⟨rfl, rfl⟩
  · simp only [Option.some.injEq, Prod.mk.injEq] at h
    obtain ⟨hf, hr⟩ := h
    subst hf; subst hr
    exact ⟨rfl, rfl⟩

theorem parseNumberLit_consumed (s lit rest : List Char)
    (h : parseNumberLit s = some (lit, rest)) :
    s = lit ++ rest ∧ rawOk lit = true := by
  simp only [parseNumberLit] at h
  split at h
  · exact absurd h (by simp)
  · rename_i c r heq
    split at h
    · exact absurd h (by simp)
    · rename_i hdig0
      rw [not_not] at hdig0
      simp only [Option.pure_def, Option.bind_eq_bind, Option.bind_eq_some] at h
      obtain ⟨⟨f1, f2⟩, hfp, h⟩ := h
      obtain ⟨⟨e1, e2⟩, hep, h⟩ := h
      simp only [Option.some.injEq, Prod.mk.injEq] at h
      obtain ⟨hlit, hrest⟩ := h
      subst hrest
      dsimp only at hep
      have hcb : c ≠ '{' ∧ c ≠ '}' := isDigitCh_ne_brace hdig0
      have hcomb := And.intro heq hlit
      clear heq hlit
      split at hcomb
      · rename_i r0
        obtain ⟨heq, hlit⟩ := hcomb
        dsimp only at heq hlit
        subst heq
        by_cases hc0 : c = '0'
        · subst hc0
          rw [if_pos rfl] at hfp hlit
          dsimp only at hfp hlit
          obtain ⟨hf, hfOk⟩ := parseFracPart_consumed r f1 f2 hfp
          obtain ⟨he, heOk⟩ := parseExpPart_consumed f2 e1 e2 hep
          subst hf
          subst he
          refine ⟨by rw [← hlit]; simp, ?_⟩
          rw [← hlit]
          exact rawOk_append (rawOk_append (rawOk_append (by decide) (by decide)) hfOk) heOk
        · rw [if_neg hc0] at hfp hlit
          dsimp only at hfp hlit
          obtain ⟨tw, htw⟩ : ∃ tw, r.takeWhile isDigitCh = tw := ⟨_, rfl⟩
          obtain ⟨dw, hdwx⟩ : ∃ dw, r.dropWhile isDigitCh = dw := ⟨_, rfl⟩
          have htwOk : rawOk tw = true := by
            rw [← htw]
            exact rawOk_of_forall (fun _ hc => isDigitCh_ne_brace (List.mem_takeWhile_imp hc))
          have hr : r = tw ++ dw := by
            rw [← htw, ← hdwx, List.takeWhile_append_dropWhile]
          rw [htw] at hlit
          rw [hdwx] at hfp
          clear htw hdwx
          obtain ⟨hf, hfOk⟩ := parseFracPart_consumed dw f1 f2 hfp
          obtain ⟨he, heOk⟩ := parseExpPart_consumed f2 e1 e2 hep
          subst hf
          subst he
          subst hr
          refine ⟨by rw [← hlit]; simp, ?_⟩
          rw [← hlit]
          exact rawOk_append (rawOk_append (rawOk_append (by decide)
            (rawOk_cons hcb.1 hcb.2 htwOk)) hfOk) heOk
      · obtain ⟨heq, hlit⟩ := hcomb
        dsimp only at heq hlit
        subst heq
        by_cases hc0 : c = '0'
        · subst hc0
          rw [if_pos rfl] at hfp hlit
          dsimp only at hfp hlit
          obtain ⟨hf, hfOk⟩ := parseFracPart_consumed r f1 f2 hfp
          obtain ⟨he, heOk⟩ := parseExpPart_consumed f2 e1 e2 hep
          subst hf
          subst he
          refine ⟨by rw [← hlit]; simp, ?_⟩
          rw [← hlit]
          exact rawOk_append (rawOk_append (rawOk_append (by decide) (by decide)) hfOk) heOk
        · rw [if_neg hc0] at hfp hlit
          dsimp only at hfp hlit
          obtain ⟨tw, htw⟩ : ∃ tw, r.takeWhile isDigitCh = tw := ⟨_, rfl⟩
          obtain ⟨dw, hdwx⟩ : ∃ dw, r.dropWhile isDigitCh = dw := ⟨_, rfl⟩
          have htwOk : rawOk tw = true := by
            rw [← htw]
            exact rawOk_of_forall (fun _ hc => isDigitCh_ne_brace (List.mem_takeWhile_imp hc))
          have hr : r = tw ++ dw := by
            rw [← htw, ← hdwx, List.takeWhile_append_dropWhile]
          rw [htw] at hlit
          rw [hdwx] at hfp
          clear htw hdwx
          obtain ⟨hf, hfOk⟩ := parseFracPart_consumed dw f1 f2 hfp
          obtain ⟨he, heOk⟩ := parseExpPart_consumed f2 e1 e2 hep
          subst hf
          subst he
          subst hr
          refine ⟨by rw [← hlit]; simp, ?_⟩
          rw [← hlit]
          exact rawOk_append (rawOk_append (rawOk_append (by decide)
            (rawOk_cons hcb.1 hcb.2 htwOk)) hfOk) heOk

theorem parseStringBodyBF_spec (fuel : Nat) (s str rest : List Char)
    (h : parseStringBodyBF fuel s = some (str, rest)) :
    parseStringBody fuel s = some (str, rest) ∧
    ∃ c, s = c ++ rest ∧ rawOk c = true := by
  rw [parseStringBodyBF] at h
  split at h
  · exact absurd h (by simp)
  · rename_i p heq
    split at h
    · rename_i hch
      simp only [Option.some.injEq] at h
      subst h
      obtain ⟨c, hc⟩ := parseStringBody_consumed fuel s str rest heq
      refine ⟨heq, c, hc, ?_⟩
      rw [hc] at hch
      have hlen : (c ++ rest).length - rest.length = c.length := by
        simp [List.length_append]
      rw [hlen, List.take_left] at hch
      exact hch
    · exact absurd h (by simp)

theorem ws_split {s t : List Char} (h : s.dropWhile isJsonWs = t) :
    ∃ w, rawOk w = true ∧ (∀ x ∈ w, isJsonWs x = true) ∧ s = w ++ t :=
  ⟨s.takeWhile isJsonWs, takeWhile_ws_rawOk s,
    fun _ hx => List.mem_takeWhile_imp hx,
    by rw [← h]; exact ws_decomp s⟩

theorem parseValue_step_objE (fuel : Nat) (s r r2 : List Char)
    (hdw : s.dropWhile isJsonWs = '{' :: r)
    (hdw2 : r.dropWhile isJsonWs = '}' :: r2) :
    parseValue (fuel + 1) s = some (JsVal.obj [], r2) := by
  simp only [parseValue]
  split
  · rename_i heq
    rw [hdw] at heq; simp at heq
  · rename_i c2 r2x heq
    rw [hdw] at heq
    injection heq with h1 h2
    subst h1; subst h2
    rw [if_pos rfl]
    split
    · rename_i r3 heq2
      rw [hdw2] at heq2
      injection heq2 with h3 h4
      subst h4
      rfl
    · rename_i hne2
      exact absurd hdw2 (hne2 r2)

theorem parseValue_step_objM (fuel : Nat) (s r : List Char)
    (hdw : s.dropWhile isJsonWs = '{' :: r)
    (hne : ∀ r2 : List Char, r.dropWhile isJsonWs ≠ '}' :: r2) :
    parseValue (fuel + 1) s =
      (parseMembers fuel r []).map (fun p => (JsVal.obj p.1, p.2)) := by
  simp only [parseValue]
  split
  · rename_i heq
    rw [hdw] at heq; simp at heq
  · rename_i c2 r2x heq
    rw [hdw] at heq
    injection heq with h1 h2
    subst h1; subst h2
    rw [if_pos rfl]
    split
    · rename_i r3 heq2
      exact absurd heq2 (hne r3)
    · rfl

theorem parseValue_step_arrE (fuel : Nat) (s r r2 : List Char)
    (hdw : s.dropWhile isJsonWs = '[' :: r)
    (hdw2 : r.dropWhile isJsonWs = ']' :: r2) :
    parseValue (fuel + 1) s = some (JsVal.arr [], r2) := by
  simp only [parseValue]
  split
  · rename_i heq
    rw [hdw] at heq; simp at heq
  · rename_i c2 r2x heq
    rw [hdw] at heq
    injection heq with h1 h2
    subst h1; subst h2
    rw [if_neg (by decide), if_pos rfl]
    split
    · rename_i r3 heq2
      rw [hdw2] at heq2
      injection heq2 with h3 h4
      subst h4
      rfl
    · rename_i hne2
      exact absurd hdw2 (hne2 r2)

theorem parseValue_step_arrM (fuel : Nat) (s r : List Char)
    (hdw : s.dropWhile isJsonWs = '[' :: r)
    (hne : ∀ r2 : List Char, r.dropWhile isJsonWs ≠ ']' :: r2) :
    parseValue (fuel + 1) s =
      (parseElems fuel r []).map (fun p => (JsVal.arr p.1, p.2)) := by
  simp only [parseValue]
  split
  · rename_i heq
    rw [hdw] at heq; simp at heq
  · rename_i c2 r2x heq
    rw [hdw] at heq
    injection heq with h1 h2
    subst h1; subst h2
    rw [if_neg (by decide), if_pos rfl]
    split
    · rename_i r3 heq2
      exact absurd heq2 (hne r3)
    · rfl

theorem parseValue_step_str (fuel : Nat) (s r : List Char)
    (hdw : s.dropWhile isJsonWs = '"' :: r) :
    parseValue (fuel + 1) s =
      (parseStringBody (r.length + 1) r).map (fun p => (JsVal.str p.1, p.2)) := by
  simp only [parseValue]
  split
  · rename_i heq
    rw [hdw] at heq; simp at heq
  · rename_i c2 r2x heq
    rw [hdw] at heq
    injection heq with h1 h2
    subst h1; subst h2
    rw [if_neg (by decide), if_neg (by decide), if_pos rfl]

theorem parseValue_step_true (fuel : Nat) (s r : List Char)
    (hdw : s.dropWhile isJsonWs = 't' :: r) :
    parseValue (fuel + 1) s =
      (if ['r', 'u', 'e'].isPrefixOf r then some (JsVal.bool true, r.drop 3)
       else none) := by
  simp only [parseValue]
  split
  · rename_i heq
    rw [hdw] at heq; simp at heq
  · rename_i c2 r2x heq
    rw [hdw] at heq
    injection heq with h1 h2
    subst h1; subst h2
    rw [if_neg (by decide), if_neg (by decide), if_neg (by decide), if_pos rfl]

theorem parseValue_step_false (fuel : Nat) (s r : List Char)
    (hdw : s.dropWhile isJsonWs = 'f' :: r) :
    parseValue (fuel + 1) s =
      (if ['a', 'l', 's', 'e'].isPrefixOf r then some (JsVal.bool false, r.drop 4)
       else none) := by
  simp only [parseValue]
  split
  · rename_i heq
    rw [hdw] at heq; simp at heq
  · rename_i c2 r2x heq
    rw [hdw] at heq
    injection heq with h1 h2
    subst h1; subst h2
    rw [if_neg (by decide), if_neg (by decide), if_neg (by decide),
      if_neg (by decide), if_pos rfl]

theorem parseValue_step_null (fuel : Nat) (s r : List Char)
    (hdw : s.dropWhile isJsonWs = 'n' :: r) :
    parseValue (fuel + 1) s =
      (if ['u', 'l', 'l'].isPrefixOf r then some (JsVal.null, r.drop 3)
       else none) := by
  simp only [parseValue]
  split
  · rename_i heq
    rw [hdw] at heq; simp at heq
  · rename_i c2 r2x heq
    rw [hdw] at heq
    injection heq with h1 h2
    subst h1; subst h2
    rw [if_neg (by decide), if_neg (by decide), if_neg (by decide),
      if_neg (by decide), if_neg (by decide), if_pos rfl]

theorem parseValue_step_num (fuel : Nat) (s r : List Char) (c : Char)
    (hdw : s.dropWhile isJsonWs = c :: r)
    (h1 : c ≠ '{') (h2 : c ≠ '[') (h3 : c ≠ '"') (h4 : c ≠ 't') (h5 : c ≠ 'f')
    (h6 : c ≠ 'n') :
    parseValue (fuel + 1) s =
      (parseNumberLit (c :: r)).map (fun p => (JsVal.num p.1, p.2)) := by
  simp only [parseValue]
  split
  · rename_i heq
    rw [hdw] at heq; simp at heq
  · rename_i c2 r2x heq
    rw [hdw] at heq
    injection heq with hc hr
    subst hc; subst hr
    rw [if_neg h1, if_neg h2, if_neg h3, if_neg h4, if_neg h5, if_neg h6]

theorem parseMembers_step (fuel : Nat) (s r key r2 r3 : List Char)
    (v : JsVal) (r4 : List Char) (acc : List (List Char × JsVal))
    (hdw : s.dropWhile isJsonWs = '"' :: r)
    (hsb : parseStringBody (r.length + 1) r = some (key, r2))
    (hdw2 : r2.dropWhile isJsonWs = ':' :: r3)
    (hpv : parseValue fuel r3 = some (v, r4)) :
    parseMembers (fuel + 1) s acc =
      (match r4.dropWhile isJsonWs with
       | ',' :: r5 => parseMembers fuel r5 (setField acc key v)
       | '}' :: r5 => some (setField acc key v, r5)
       | _ => none) := by
  simp only [parseMembers]
  split
  · rename_i r' heq
    rw [hdw] at heq
    injection heq with hq hr
    subst hr
    split
    · rename_i heq2
      rw [hsb] at heq2; simp at heq2
    · rename_i key0 r20 heq2
      rw [hsb] at heq2
      injection heq2 with hkr
      injection hkr with hk hr2
      subst hk; subst hr2
      split
      · rename_i r30 heq3
        rw [hdw2] at heq3
        injection heq3 with hc3 hr3
        subst hr3
        split
        · rename_i heq4
          rw [hpv] at heq4; simp at heq4
        · rename_i v0 r40 heq4
          rw [hpv] at heq4
          injection heq4 with hvr
          injection hvr with hv hr4
          subst hv; subst hr4
          rfl
      · rename_i hne
        exact absurd hdw2 (hne r3)
  · rename_i hne
    exact absurd hdw (hne r)

theorem parseElems_step (fuel : Nat) (s r : List Char) (v : JsVal)
    (acc : List JsVal)
    (hpv : parseValue fuel s = some (v, r)) :
    parseElems (fuel + 1) s acc =
      (match r.dropWhile isJsonWs with
       | ',' :: r2 => parseElems fuel r2 (acc ++ [v])
       | ']' :: r2 => some (acc ++ [v], r2)
       | _ => none) := by
  simp only [parseElems]
  split
  · rename_i heq
    rw [hpv] at heq; simp at heq
  · rename_i v0 r0 heq
    rw [hpv] at heq
    injection heq with hvr
    injection hvr with hv hr
    subst hv; subst hr
    rfl

theorem parseBF_spec :
    ∀ fuel : Nat,
      (∀ s v rest, parseValueBF fuel s = some (v, rest) →
        parseValue fuel s = some (v, rest) ∧
        ∃ c, s = c ++ rest ∧ Neutral c) ∧
      (∀ s acc fs rest, parseMembersBF fuel s acc = some (fs, rest) →
        parseMembers fuel s acc = some (fs, rest) ∧
        ∃ m, s = m ++ '}' :: rest ∧ Neutral m) ∧
      (∀ s acc es rest, parseElemsBF fuel s acc = some (es, rest) →
        parseElems fuel s acc = some (es, rest) ∧
        ∃ c, s = c ++ ']' :: rest ∧ Neutral c) := by
  intro fuel
  induction fuel with
  | zero =>
    refine ⟨?_, ?_, ?_⟩
    · intro s v rest h; simp [parseValueBF] at h
    · intro s acc fs rest h; simp [parseMembersBF] at h
    · intro s acc es rest h; simp [parseElemsBF] at h
  | succ fuel ih =>
    obtain ⟨ihv, ihm, ihe⟩ := ih
    refine ⟨?_, ?_, ?_⟩
    · -- parseValueBF is sound and consumes a balanced prefix
      intro s v rest h
      simp only [parseValueBF] at h
      split at h
      · exact absurd h (by simp)
      · rename_i c r hdw
        split at h
        · -- c = '{'
          rename_i hc
          subst hc
          obtain ⟨w1, hw1Ok, hw1ws, hs⟩ := ws_split hdw
          split at h
          · -- empty object
            rename_i r2 hdw2
            simp only [Option.some.injEq, Prod.mk.injEq] at h
            obtain ⟨hv, hr⟩ := h
            subst hv; subst hr
            obtain ⟨w2, hw2Ok, hw2ws, hr⟩ := ws_split hdw2
            refine ⟨parseValue_step_objE fuel s r _ hdw hdw2,
                    w1 ++ ('{' :: (w2 ++ ['}'])), ?_, ?_⟩
            · rw [hs, hr]; simp
            · exact (neutral_of_rawOk hw1Ok).append
                (Neutral.wrap w2 [] (neutral_of_rawOk hw2Ok) Neutral.nil)
          · -- members
            rename_i hne0
            rw [Option.map_eq_some'] at h
            obtain ⟨⟨fs0, r0⟩, hbf, hpr⟩ := h
            simp only [Prod.mk.injEq] at hpr
            obtain ⟨hv, hr0⟩ := hpr
            subst hv; subst hr0
            obtain ⟨hmOrig, m, hm, hnm⟩ := ihm r [] _ _ hbf
            have hne : ∀ r2 : List Char, r.dropWhile isJsonWs ≠ '}' :: r2 := by
              intro r2 hx; exact hne0 r2 hx
            refine ⟨?_, w1 ++ ('{' :: (m ++ ['}'])), ?_, ?_⟩
            · rw [parseValue_step_objM fuel s r hdw hne, hmOrig]
              rfl
            · rw [hs, hm]; simp
            · exact (neutral_of_rawOk hw1Ok).append
                (Neutral.wrap m [] hnm Neutral.nil)
        · rename_i hc1
          split at h
          · -- c = '['
            rename_i hc
            subst hc
            obtain ⟨w1, hw1Ok, hw1ws, hs⟩ := ws_split hdw
            split at h
            · -- empty array
              rename_i r2 hdw2
              simp only [Option.some.injEq, Prod.mk.injEq] at h
              obtain ⟨hv, hr⟩ := h
              subst hv; subst hr
              obtain ⟨w2, hw2Ok, hw2ws, hr⟩ := ws_split hdw2
              refine ⟨parseValue_step_arrE fuel s r _ hdw hdw2,
                      w1 ++ ('[' :: (w2 ++ [']'])), ?_, ?_⟩
              · rw [hs, hr]; simp
              · exact (neutral_of_rawOk hw1Ok).append
                  (Neutral.other '[' _ (by decide) (by decide)
                    ((neutral_of_rawOk hw2Ok).append
                      (Neutral.other ']' [] (by decide) (by decide) Neutral.nil)))
            · -- elements
              rename_i hne0
              rw [Option.map_eq_some'] at h
              obtain ⟨⟨es0, r0⟩, hbf, hpr⟩ := h
              simp only [Prod.mk.injEq] at hpr
              obtain ⟨hv, hr0⟩ := hpr
              subst hv; subst hr0
              obtain ⟨heOrig, ce, hce, hnce⟩ := ihe r [] _ _ hbf
              have hne : ∀ r2 : List Char, r.dropWhile isJsonWs ≠ ']' :: r2 := by
                intro r2 hx; exact hne0 r2 hx
              refine ⟨?_, w1 ++ ('[' :: (ce ++ [']'])), ?_, ?_⟩
              · rw [parseValue_step_arrM fuel s r hdw hne, heOrig]
                rfl
              · rw [hs, hce]; simp
              · exact (neutral_of_rawOk hw1Ok).append
                  (Neutral.other '[' _ (by decide) (by decide)
                    (hnce.append
                      (Neutral.other ']' [] (by decide) (by decide) Neutral.nil)))
          · rename_i hc2
            split at h
            · -- c = '"'
              rename_i hc
              subst hc
              obtain ⟨w1, hw1Ok, hw1ws, hs⟩ := ws_split hdw
              rw [Option.map_eq_some'] at h
              obtain ⟨⟨s0, r0⟩, hbf, hpr⟩ := h
              simp only [Prod.mk.injEq] at hpr
              obtain ⟨hv, hr0⟩ := hpr
              subst hv; subst hr0
              obtain ⟨hsb, cs, hcs, hcsOk⟩ :=
                parseStringBodyBF_spec (r.length + 1) r _ _ hbf
              refine ⟨?_, w1 ++ ('"' :: cs), ?_, ?_⟩
              · rw [parseValue_step_str fuel s r hdw, hsb]
                rfl
              · rw [hs, hcs]; simp
              · exact (neutral_of_rawOk hw1Ok).append
                  (Neutral.other '"' cs (by decide) (by decide) (neutral_of_rawOk hcsOk))
            · rename_i hc3
              split at h
              · -- c = 't'
                rename_i hc
                subst hc
                obtain ⟨w1, hw1Ok, hw1ws, hs⟩ := ws_split hdw
                split at h
                · rename_i hpre
                  simp only [Option.some.injEq, Prod.mk.injEq] at h
                  obtain ⟨hv, hr⟩ := h
                  subst hv
                  have hrdec : r = ['r', 'u', 'e'] ++ rest := by
                    rw [← hr]; exact isPrefixOf_decomp hpre
                  refine ⟨?_, w1 ++ ['t', 'r', 'u', 'e'], ?_, ?_⟩
                  · rw [parseValue_step_true fuel s r hdw, if_pos hpre, hr]
                  · rw [hs, hrdec]; simp
                  · exact neutral_of_rawOk (rawOk_append hw1Ok (by decide))
                · exact absurd h (by simp)
              · rename_i hc4
                split at h
                · -- c = 'f'
                  rename_i hc
                  subst hc
                  obtain ⟨w1, hw1Ok, hw1ws, hs⟩ := ws_split hdw
                  split at h
                  · rename_i hpre
                    simp only [Option.some.injEq, Prod.mk.injEq] at h
                    obtain ⟨hv, hr⟩ := h
                    subst hv
                    have hrdec : r = ['a', 'l', 's', 'e'] ++ rest := by
                      rw [← hr]; exact isPrefixOf_decomp hpre
                    refine ⟨?_, w1 ++ ['f', 'a', 'l', 's', 'e'], ?_, ?_⟩
                    · rw [parseValue_step_false fuel s r hdw, if_pos hpre, hr]
                    · rw [hs, hrdec]; simp
                    · exact neutral_of_rawOk (rawOk_append hw1Ok (by decide))
                  · exact absurd h (by simp)
                · rename_i hc5
                  split at h
                  · -- c = 'n'
                    rename_i hc
                    subst hc
                    obtain ⟨w1, hw1Ok, hw1ws, hs⟩ := ws_split hdw
                    split at h
                    · rename_i hpre
                      simp only [Option.some.injEq, Prod.mk.injEq] at h
                      obtain ⟨hv, hr⟩ := h
                      subst hv
                      have hrdec : r = ['u', 'l', 'l'] ++ rest := by
                        rw [← hr]; exact isPrefixOf_decomp hpre
                      refine ⟨?_, w1 ++ ['n', 'u', 'l', 'l'], ?_, ?_⟩
                      · rw [parseValue_step_null fuel s r hdw, if_pos hpre, hr]
                      · rw [hs, hrdec]; simp
                      · exact neutral_of_rawOk (rawOk_append hw1Ok (by decide))
                    · exact absurd h (by simp)
                  · -- number
                    rename_i hc6
                    obtain ⟨w1, hw1Ok, hw1ws, hs⟩ := ws_split hdw
                    rw [Option.map_eq_some'] at h
                    obtain ⟨⟨l0, r0⟩, hnum, hpr⟩ := h
                    simp only [Prod.mk.injEq] at hpr
                    obtain ⟨hv, hr0⟩ := hpr
                    subst hv; subst hr0
                    obtain ⟨hcr, hlitOk⟩ := parseNumberLit_consumed (c :: r) _ _ hnum
                    refine ⟨?_, w1 ++ l0, ?_, ?_⟩
                    · rw [parseValue_step_num fuel s r c hdw hc1 hc2 hc3 hc4 hc5 hc6,
                        hnum]
                      rfl
                    · rw [hs, hcr]; simp
                    · exact neutral_of_rawOk (rawOk_append hw1Ok hlitOk)
    · -- parseMembersBF is sound and consumes through the closing brace
      intro s acc fs rest h
      simp only [parseMembersBF] at h
      split at h
      · rename_i r hdw
        split at h
        · exact absurd h (by simp)
        · rename_i key r2 hsbBF
          split at h
          · rename_i r3 hdw2
            split at h
            · exact absurd h (by simp)
            · rename_i v0 r4 hpvBF
              obtain ⟨hsb, cKey, hcKey, hcKeyOk⟩ :=
                parseStringBodyBF_spec (r.length + 1) r key r2 hsbBF
              obtain ⟨hpv, cVal, hcVal, hnVal⟩ := ihv r3 v0 r4 hpvBF
              obtain ⟨w1, hw1Ok, hw1ws, hs⟩ := ws_split hdw
              obtain ⟨w2, hw2Ok, hw2ws, hr2⟩ := ws_split hdw2
              split at h
              · -- ',' :: r5 — recurse
                rename_i r5 hdw3
                obtain ⟨w3, hw3Ok, hw3ws, hr4⟩ := ws_split hdw3
                obtain ⟨hmOrig, m2, hm2, hnm2⟩ := ihm r5 (setField acc key v0) fs rest h
                refine ⟨?_, w1 ++ ('"' :: (cKey ++ (w2 ++ (':' :: (cVal ++ (w3 ++ (',' :: m2))))))),
                        ?_, ?_⟩
                · rw [parseMembers_step fuel s r key r2 r3 v0 r4 acc hdw hsb hdw2 hpv]
                  split
                  · rename_i r50 heq5
                    rw [hdw3] at heq5
                    injection heq5 with hx5 hr5
                    subst hr5
                    exact hmOrig
                  · rename_i r50 heq5
                    rw [hdw3] at heq5
                    injection heq5 with hbad
                    exact absurd hbad (by decide)
                  · rename_i hneC hneX
                    exact absurd hdw3 (hneC r5)
                · rw [hs, hcKey, hr2, hcVal, hr4, hm2]; simp
                · exact (neutral_of_rawOk hw1Ok).append
                    (Neutral.other '"' _ (by decide) (by decide)
                      ((neutral_of_rawOk hcKeyOk).append
                        ((neutral_of_rawOk hw2Ok).append
                          (Neutral.other ':' _ (by decide) (by decide)
                            (hnVal.append
                              ((neutral_of_rawOk hw3Ok).append
                                (Neutral.other ',' _ (by decide) (by decide) hnm2)))))))
              · -- '}' :: r5 — terminal
                rename_i r5 hdw3
                simp only [Option.some.injEq, Prod.mk.injEq] at h
                obtain ⟨hfs, hr5⟩ := h
                subst hfs; subst hr5
                obtain ⟨w3, hw3Ok, hw3ws, hr4⟩ := ws_split hdw3
                refine ⟨?_, w1 ++ ('"' :: (cKey ++ (w2 ++ (':' :: (cVal ++ w3))))), ?_, ?_⟩
                · rw [parseMembers_step fuel s r key r2 r3 v0 r4 acc hdw hsb hdw2 hpv]
                  split
                  · rename_i r50 heq5
                    rw [hdw3] at heq5
                    injection heq5 with hbad
                    exact absurd hbad (by decide)
                  · rename_i r50 heq5
                    rw [hdw3] at heq5
                    injection heq5 with hx5 hr50
                    subst hr50
                    rfl
                  · rename_i hneC hneX
                    exact absurd hdw3 (hneX _)
                · rw [hs, hcKey, hr2, hcVal, hr4]; simp
                · exact (neutral_of_rawOk hw1Ok).append
                    (Neutral.other '"' _ (by decide) (by decide)
                      ((neutral_of_rawOk hcKeyOk).append
                        ((neutral_of_rawOk hw2Ok).append
                          (Neutral.other ':' _ (by decide) (by decide)
                            (hnVal.append (neutral_of_rawOk hw3Ok))))))
              · exact absurd h (by simp)
          · exact absurd h (by simp)
      · exact absurd h (by simp)
    · -- parseElemsBF is sound and consumes through the closing bracket
      intro s acc es rest h
      simp only [parseElemsBF] at h
      split at h
      · exact absurd h (by simp)
      · rename_i v0 r hpvBF
        obtain ⟨hpv, cVal, hcVal, hnVal⟩ := ihv s v0 r hpvBF
        split at h
        · -- ',' :: r2 — recurse
          rename_i r2 hdw
          obtain ⟨w, hwOk, hwws, hr⟩ := ws_split hdw
          obtain ⟨heOrig, c2, hc2, hnc2⟩ := ihe r2 (acc ++ [v0]) es rest h
          refine ⟨?_, cVal ++ (w ++ (',' :: c2)), ?_, ?_⟩
          · rw [parseElems_step fuel s r v0 acc hpv]
            split
            · rename_i r20 heq2
              rw [hdw] at heq2
              injection heq2 with hx hr2x
              subst hr2x
              exact heOrig
            · rename_i r20 heq2
              rw [hdw] at heq2
              injection heq2 with hbad
              exact absurd hbad (by decide)
            · rename_i hneC hneX
              exact absurd hdw (hneC r2)
          · rw [hcVal, hr, hc2]; simp
          · exact hnVal.append ((neutral_of_rawOk hwOk).append
              (Neutral.other ',' _ (by decide) (by decide) hnc2))
        · -- ']' :: r2 — terminal
          rename_i r2 hdw
          simp only [Option.some.injEq, Prod.mk.injEq] at h
          obtain ⟨hes, hr2⟩ := h
          subst hes; subst hr2
          obtain ⟨w, hwOk, hwws, hr⟩ := ws_split hdw
          refine ⟨?_, cVal ++ w, ?_, ?_⟩
          · rw [parseElems_step fuel s r v0 acc hpv]
            split
            · rename_i r20 heq2
              rw [hdw] at heq2
              injection heq2 with hbad
              exact absurd hbad (by decide)
            · rename_i r20 heq2
              rw [hdw] at heq2
              injection heq2 with hx hr20
              subst hr20
              rfl
            · rename_i hneC hneX
              exact absurd hdw (hneX _)
          · rw [hcVal, hr]; simp
          · exact hnVal.append (neutral_of_rawOk hwOk)
        · exact absurd h (by simp)

theorem parseValueBF_obj_shape (fuel : Nat) (s0 : List Char) (v : JsVal)
    (rest : List Char)
    (h : parseValueBF (fuel + 1) ('{' :: s0) = some (v, rest)) :
    parseValue (fuel + 1) ('{' :: s0) = some (v, rest) ∧
    ∃ m, '{' :: s0 = ('{' :: (m ++ ['}'])) ++ rest ∧ Neutral m := by
  have hsound := ((parseBF_spec (fuel + 1)).1 ('{' :: s0) v rest h).1
  refine ⟨hsound, ?_⟩
  have hdw0 : ('{' :: s0).dropWhile isJsonWs = '{' :: s0 := by
    rw [List.dropWhile_cons, if_neg (by decide)]
  simp only [parseValueBF] at h
  split at h
  · exact absurd h (by simp)
  · rename_i c r hdw
    rw [hdw0] at hdw
    injection hdw with hc hr
    subst hr
    split at h
    · rename_i hcc
      subst hcc
      split at h
      · rename_i r2 hdw2
        simp only [Option.some.injEq, Prod.mk.injEq] at h
        obtain ⟨hv, hr2⟩ := h
        obtain ⟨w2, hw2Ok, hw2ws, hr⟩ := ws_split hdw2
        refine ⟨w2, ?_, neutral_of_rawOk hw2Ok⟩
        rw [hr, hr2]
        simp
      · rw [Option.map_eq_some'] at h
        obtain ⟨⟨fs0, r0⟩, hbf, hpr⟩ := h
        simp only [Prod.mk.injEq] at hpr
        obtain ⟨hv, hr0⟩ := hpr
        obtain ⟨_, m, hm, hnm⟩ := (parseBF_spec fuel).2.1 _ [] _ _ hbf
        refine ⟨m, ?_, hnm⟩
        rw [hm, hr0]
        simp
    · rename_i hcc
      exact absurd hc.symm hcc

/-- C2 counterexample: `objC2` serializes to a well-formed JSON object string
starting with a brace whose string literal contains a closing brace; the
string-unaware extractor reports `isComplete = true` but a candidate strictly
shorter than the input, refuting the quantification over all well-formed JSON
objects. -/
theorem extraction_balance_cex :
    jsonParse (serialize objC2) = some (.obj [(chars "a", .str ['}'])]) ∧
    (extractJSONFromStream (serialize objC2)).isComplete = true ∧
    (extractJSONFromStream (serialize objC2)).json ≠ some (serialize objC2) := by
  refine ⟨rfl, ?_, ?_⟩
  · decide
  · decide

theorem rdropWhile_append_ws :
    ∀ (t l : List Char), (∀ x ∈ t, isJsonWs x = true) →
      (l ++ t).rdropWhile isJsonWs = l.rdropWhile isJsonWs := by
  intro t
  induction t with
  | nil => intro l _; rw [List.append_nil]
  | cons x t ih =>
    intro l hall
    rw [show l ++ x :: t = (l ++ [x]) ++ t from by simp,
      ih (l ++ [x]) (fun y hy => hall y (List.mem_cons_of_mem x hy))]
    exact List.rdropWhile_concat_pos _ _ x (hall x (List.mem_cons_self x t))

/-- C2 (amended): for every well-formed JSON object string `s` that starts
with `{` and none of whose string literals (keys or values) contains a raw
`{` or `}` character — the domain `jsonParseBF`, which covers arbitrary
inter-token whitespace, fractional and exponent number literals and all string
escapes — the extractor reports `isComplete = true`, and the candidate equals
`s` with its trailing whitespace removed — hence `s` itself whenever `s` ends
with its closing `}`. -/
theorem extract_balance_wellformed (s : List Char) (v : JsVal)
    (hp : jsonParseBF s = some v) (hh : s.head? = some '{') :
    jsonParse s = some v ∧
    (extractJSONFromStream s).isComplete = true ∧
    (extractJSONFromStream s).json = some (s.rdropWhile isJsonWs) ∧
    (s.getLast? = some '}' → extractJSONFromStream s = ⟨some s, true⟩) := by
  rcases s with _ | ⟨c0, s0⟩
  · exact absurd hh (by simp)
  · have hc0 : c0 = '{' := by simpa using hh
    subst hc0
    simp only [jsonParseBF] at hp
    split at hp
    · exact absurd hp (by simp)
    · rename_i v0 rest heqv
      split at hp
      · rename_i hws
        simp only [Option.some.injEq] at hp
        subst hp
        have hF : 2 * (('{' :: s0).length) + 8 = 2 * s0.length + 9 + 1 := by
          simp [List.length_cons]
          omega
        rw [hF] at heqv
        obtain ⟨hsound, m, hshape, hm⟩ :=
          parseValueBF_obj_shape (2 * s0.length + 9) s0 v0 rest heqv
        have hsound2 : parseValue (2 * (('{' :: s0).length) + 8) ('{' :: s0) =
            some (v0, rest) := by
          rw [hF]
          exact hsound
        have hall : ∀ x ∈ rest, isJsonWs x = true := by
          have h0 : rest.dropWhile isJsonWs = [] := List.isEmpty_iff.mp hws
          intro x hx
          exact List.dropWhile_eq_nil_iff.mp h0 x hx
        have hgrp : extractJSONFromStream (('{' :: (m ++ ['}'])) ++ rest) =
            ⟨some ('{' :: (m ++ ['}'])), true⟩ := by
          have hshape2 : ('{' :: (m ++ ['}'])) ++ rest = '{' :: (m ++ '}' :: rest) := by
            simp
          rw [hshape2, extractJSONFromStream_cons_brace]
          have hfind : findBraceEnd ('{' :: (m ++ '}' :: rest)) 0 0 =
              some (1 + m.length) := by
            rw [findBraceEnd_lbrace]
            norm_num
            rw [findBraceEnd_skip hm ('}' :: rest) 1 1 (by omega), findBraceEnd_rbrace,
              if_pos (by omega : (1 : Int) - 1 = 0)]
          rw [hfind]
          show JSONExtractionResult.mk
              (some (('{' :: (m ++ '}' :: rest)).take (1 + m.length + 1))) true = _
          rw [show ('{' :: (m ++ '}' :: rest)) = ('{' :: (m ++ ['}'])) ++ rest from by simp]
          rw [show 1 + m.length + 1 = ('{' :: (m ++ ['}'])).length from by
            simp only [List.length_cons, List.length_append, List.length_nil]
            omega]
          rw [List.take_left]
        refine ⟨?_, ?_, ?_, ?_⟩
        · simp only [jsonParse]
          split
          · rename_i heq2
            rw [hsound2] at heq2
            simp at heq2
          · rename_i v2 rest2 heq2
            rw [hsound2] at heq2
            injection heq2 with hvr
            injection hvr with hv2 hrest2
            subst hv2
            subst hrest2
            rw [if_pos hws]
        · rw [hshape, hgrp]
        · rw [hshape, hgrp, rdropWhile_append_ws rest ('{' :: (m ++ ['}'])) hall,
            show '{' :: (m ++ ['}']) = ('{' :: m) ++ ['}'] from by simp,
            List.rdropWhile_concat_neg _ _ '}' (by decide)]
        · intro hl
          rcases rest with _ | ⟨x, rx⟩
          · rw [List.append_nil] at hshape
            rw [hshape]
            rw [List.append_nil] at hgrp
            exact hgrp
          · exfalso
            rw [hshape, List.getLast?_append_cons] at hl
            have hmem : '}' ∈ x :: rx := by
              have hopt : '}' ∈ (x :: rx).getLast? := Option.mem_def.mpr hl
              obtain ⟨hne, hgl⟩ := List.mem_getLast?_eq_getLast hopt
              rw [hgl]
              exact List.getLast_mem hne
            exact absurd (hall '}' hmem) (by decide)
      · exact absurd hp (by simp)

theorem extract_balance_wellformed_witness :
    jsonParseBF sC2wf = some vC2wf ∧ sC2wf.head? = some '{' ∧
    sC2wf.getLast? = some '}' ∧
    jsonParse sC2wf = some vC2wf ∧
    extractJSONFromStream sC2wf = ⟨some sC2wf, true⟩ :=
  ⟨rfl, rfl, rfl, (extract_balance_wellformed sC2wf vC2wf rfl rfl).1,
   (extract_balance_wellformed sC2wf vC2wf rfl rfl).2.2.2 rfl⟩

theorem jsonParseBF_rejects_braced_literal :
    jsonParseBF (serialize objC2) = none ∧
    (jsonParse (serialize objC2)).isSome = true :=
  ⟨rfl, rfl⟩

/-! ## The stream orchestrator: two-level retry (C1) and final rescue (C9) -/

theorem streamLoop_no_accept_eq {T : Type} (o : StreamOptions T) :
    ∀ (chunks : List (List Char)) (acc : List Char),
      (∀ a ∈ accums acc chunks, midAccept o a = none) →
      streamLoop o chunks acc =
        (match finalRescue o (acc ++ chunks.flatten) with
         | some d => .ok d
         | none => .error .unrecoverableStream) := by
  intro chunks
  induction chunks with
  | nil =>
    intro acc _
    show (match finalRescue o acc with
          | some d => Except.ok d
          | none => Except.error StreamError.unrecoverableStream) = _
    rw [show acc ++ ([] : List (List Char)).flatten = acc from by simp]
  | cons c rest ih =>
    intro acc hmid
    have hacc : accums acc (c :: rest) = (acc ++ c) :: accums (acc ++ c) rest := rfl
    have hc : midAccept o (acc ++ c) = none :=
      hmid (acc ++ c) (hacc ▸ List.mem_cons_self _ _)
    show (match midAccept o (acc ++ c) with
          | some d => Except.ok d
          | none => streamLoop o rest (acc ++ c)) = _
    rw [hc, ih (acc ++ c) (fun a ha => hmid a (hacc ▸ List.mem_cons_of_mem _ ha))]
    rw [show (acc ++ c) ++ rest.flatten = acc ++ (c :: rest).flatten from by simp]

theorem streamLoop_error_no_accept {T : Type} (o : StreamOptions T) :
    ∀ (chunks : List (List Char)) (acc : List Char) (e : StreamError),
      streamLoop o chunks acc = .error e →
      (∀ a ∈ accums acc chunks, midAccept o a = none) ∧
      finalRescue o (acc ++ chunks.flatten) = none := by
  intro chunks
  induction chunks with
  | nil =>
    intro acc e h
    constructor
    · intro a ha
      simp [accums] at ha
    · rcases hres : finalRescue o acc with _ | d
      · rw [show acc ++ ([] : List (List Char)).flatten = acc from by simp]
        exact hres
      · exfalso
        rw [show streamLoop o [] acc = Except.ok d from by
          show (match finalRescue o acc with
                | some d => Except.ok d
                | none => Except.error StreamError.unrecoverableStream) = _
          rw [hres]] at h
        cases h
  | cons c rest ih =>
    intro acc e h
    have hacc : accums acc (c :: rest) = (acc ++ c) :: accums (acc ++ c) rest := rfl
    rcases hc : midAccept o (acc ++ c) with _ | d
    · have h2 : streamLoop o rest (acc ++ c) = .error e := by
        rw [show streamLoop o (c :: rest) acc = streamLoop o rest (acc ++ c) from by
          show (match midAccept o (acc ++ c) with
                | some d => Except.ok d
                | none => streamLoop o rest (acc ++ c)) = _
          rw [hc]] at h
        exact h
      obtain ⟨hall, hres⟩ := ih (acc ++ c) e h2
      constructor
      · intro a ha
        rw [hacc] at ha
        rcases List.mem_cons.mp ha with rfl | ha2
        · exact hc
        · exact hall a ha2
      · rw [show acc ++ (c :: rest).flatten = (acc ++ c) ++ rest.flatten from by simp]
        exact hres
    · exfalso
      rw [show streamLoop o (c :: rest) acc = Except.ok d from by
        show (match midAccept o (acc ++ c) with
              | some d => Except.ok d
              | none => streamLoop o rest (acc ++ c)) = _
        rw [hc]] at h
      cases h

/-- C1: two-level retry discipline of `executeStreamLLMRequest`: when the
extractor reports a complete candidate on the buffer accumulated after an
increment but its validation fails (`isValid` false or no data), the loop
does not terminate — it continues with the next increments on the grown
buffer — and whenever it does terminate with an error, that error is the
terminal `unrecoverableStream`, raised only at end-of-stream after no
accumulated buffer ever produced a complete valid candidate and the final
rescue on the full text failed as well. -/
theorem stream_retry_discipline {T : Type} (o : StreamOptions T) (c : List Char)
    (rest : List (List Char)) (acc j : List Char)
    (hx : o.extractJSON (acc ++ c) = ⟨some j, true⟩)
    (hv : (o.validateJSON j).isValid = false ∨ (o.validateJSON j).data = none) :
    streamLoop o (c :: rest) acc = streamLoop o rest (acc ++ c) ∧
    ∀ e, streamLoop o (c :: rest) acc = .error e →
      e = .unrecoverableStream ∧
      (∀ a ∈ accums acc (c :: rest), midAccept o a = none) ∧
      finalRescue o (acc ++ (c :: rest).flatten) = none := by
  have hmid : midAccept o (acc ++ c) = none := by
    unfold midAccept
    rw [hx]
    by_cases hj : j.isEmpty
    · simp [hj]
    · rcases hd : (o.validateJSON j).data with _ | d
      · simp [hj, hd]
      · rcases hv with hv | hv
        · simp [hj, hd, hv]
        · rw [hv] at hd; cases hd
  constructor
  · show (match midAccept o (acc ++ c) with
          | some d => Except.ok d
          | none => streamLoop o rest (acc ++ c)) = _
    rw [hmid]
  · intro e he
    refine ⟨by cases e; rfl, ?_, ?_⟩
    · exact (streamLoop_error_no_accept o (c :: rest) acc e he).1
    · exact (streamLoop_error_no_accept o (c :: rest) acc e he).2

theorem stream_retry_discipline_witness :
    oRejectAll.extractJSON (([] : List Char) ++ chars "\x7b\x7d") =
      ⟨some (chars "\x7b\x7d"), true⟩ ∧
    streamLoop oRejectAll [chars "\x7b\x7d"] [] =
      streamLoop oRejectAll [] (chars "\x7b\x7d") := by
  refine ⟨by decide, ?_⟩
  exact (stream_retry_discipline oRejectAll (chars "\x7b\x7d") [] [] (chars "\x7b\x7d")
    (by decide) (Or.inl rfl)).1

/-- C9: when the increment stream ends without any mid-stream acceptance,
the orchestrator's result is entirely decided by one final pass — extraction
over the full accumulated text, `isComplete` ignored, followed by
validation: that value is the terminal result when it validates, and only
when this last attempt also fails is the terminal error thrown.  In
particular a document whose closing brace arrives in the very last increment,
or that only validates after the stream closes, is still accepted. -/
theorem stream_final_rescue_accepts {T : Type} (o : StreamOptions T)
    (chunks : List (List Char)) (acc : List Char)
    (hmid : ∀ a ∈ accums acc chunks, midAccept o a = none) :
    streamLoop o chunks acc =
      (match finalRescue o (acc ++ chunks.flatten) with
       | some v => .ok v
       | none => .error .unrecoverableStream) :=
  streamLoop_no_accept_eq o chunks acc hmid

theorem stream_final_rescue_witness :
    streamLoop oAcceptLen [chars "\x7b\"a\":1"] [] = .ok 6 := by
  have hmid : ∀ a ∈ accums [] [chars "\x7b\"a\":1"], midAccept oAcceptLen a = none := by
    intro a ha
    rw [show accums [] [chars "\x7b\"a\":1"] = [chars "\x7b\"a\":1"] from rfl,
      List.mem_singleton] at ha
    subst ha
    decide
  rw [stream_final_rescue_accepts oAcceptLen [chars "\x7b\"a\":1"] [] hmid]
  rfl

/-! ## The partial-value projector never throws (C7) -/

/-- C7: for every input string — empty, non-JSON garbage, deeply truncated —
the projector functions return a typed value (`some`) or `undefined`/`null`
(`none`) through the `.ok` constructor: no exception reaches their caller.
Their bodies do contain throwing operations (`JSON.parse`, property access on
`null`), each enclosed in the functions' catch-all. -/
theorem projector_never_throws (freshId nowMs jsonStr : List Char) :
    (∃ r, parsePartialQuizCaller freshId nowMs jsonStr = .ok r) ∧
    (∃ r, parsePartialQuizLegacyCaller nowMs jsonStr = .ok r) ∧
    (∃ r, safeParseJSONCaller jsonStr = .ok r) := by
  refine ⟨?_, ?_, ?_⟩
  · unfold parsePartialQuizCaller
    cases parsePartialQuizBody freshId nowMs jsonStr with
    | ok r => exact ⟨r, rfl⟩
    | error e => exact ⟨none, rfl⟩
  · unfold parsePartialQuizLegacyCaller
    cases parsePartialQuizLegacyBody nowMs jsonStr with
    | ok r => exact ⟨r, rfl⟩
    | error e => exact ⟨none, rfl⟩
  · unfold safeParseJSONCaller
    cases jsonParseE jsonStr with
    | ok r => exact ⟨some r, rfl⟩
    | error e => exact ⟨none, rfl⟩

/-! ## `userAnswer` normalization on accept (C8) -/

theorem lookupField_map_subst (fs : List (List Char × JsVal)) (k : List Char)
    (v : JsVal) (hany : fs.any (fun kv => kv.1 == k) = true) :
    lookupField (fs.map (fun kv => if kv.1 == k then (k, v) else kv)) k = some v := by
  induction fs with
  | nil =>
    rw [List.any_nil] at hany
    exact Bool.noConfusion hany
  | cons kv fs ih =>
    simp only [List.map_cons]
    by_cases hk : (kv.1 == k) = true
    · rw [if_pos hk]
      unfold lookupField
      have hhead : List.find? (fun kv : List Char × JsVal => kv.1 == k)
          ((k, v) :: fs.map (fun kv => if kv.1 == k then (k, v) else kv)) =
            some (k, v) :=
        List.find?_cons_of_pos _ (by simp)
      rw [hhead]
      rfl
    · have hk2 : (kv.1 == k) = false := Bool.eq_false_iff.mpr hk
      rw [List.any_cons, hk2, Bool.false_or] at hany
      rw [if_neg hk]
      unfold lookupField
      have hhead : List.find? (fun kv : List Char × JsVal => kv.1 == k)
          (kv :: fs.map (fun kv => if kv.1 == k then (k, v) else kv)) =
            List.find? (fun kv : List Char × JsVal => kv.1 == k)
              (fs.map (fun kv => if kv.1 == k then (k, v) else kv)) :=
        List.find?_cons_of_neg _ hk
      rw [hhead]
      exact ih hany

theorem lookupField_map_subst_other (fs : List (List Char × JsVal))
    (k k2 : List Char) (v : JsVal) (h : k2 ≠ k) :
    lookupField (fs.map (fun kv => if kv.1 == k then (k, v) else kv)) k2 =
      lookupField fs k2 := by
  have hne : (k == k2) = false := beq_eq_false_iff_ne.mpr (fun hh => h hh.symm)
  induction fs with
  | nil => rfl
  | cons kv fs ih =>
    simp only [List.map_cons]
    by_cases hk : (kv.1 == k) = true
    · have hkv : kv.1 = k := eq_of_beq hk
      rw [if_pos hk]
      unfold lookupField
      have hheadL : List.find? (fun kv : List Char × JsVal => kv.1 == k2)
          ((k, v) :: fs.map (fun kv => if kv.1 == k then (k, v) else kv)) =
            List.find? (fun kv : List Char × JsVal => kv.1 == k2)
              (fs.map (fun kv => if kv.1 == k then (k, v) else kv)) :=
        List.find?_cons_of_neg _ (by simp [hne])
      have hheadR : List.find? (fun kv : List Char × JsVal => kv.1 == k2) (kv :: fs) =
          List.find? (fun kv : List Char × JsVal => kv.1 == k2) fs :=
        List.find?_cons_of_neg _ (by simp [hkv, hne])
      rw [hheadL, hheadR]
      exact ih
    · rw [if_neg hk]
      unfold lookupField
      by_cases hm : (kv.1 == k2) = true
      · have hheadL : List.find? (fun kv : List Char × JsVal => kv.1 == k2)
            (kv :: fs.map (fun kv => if kv.1 == k then (k, v) else kv)) = some kv :=
          List.find?_cons_of_pos _ hm
        have hheadR : List.find? (fun kv : List Char × JsVal => kv.1 == k2) (kv :: fs) =
            some kv :=
          List.find?_cons_of_pos _ hm
        rw [hheadL, hheadR]
      · have hheadL : List.find? (fun kv : List Char × JsVal => kv.1 == k2)
            (kv :: fs.map (fun kv => if kv.1 == k then (k, v) else kv)) =
              List.find? (fun kv : List Char × JsVal => kv.1 == k2)
                (fs.map (fun kv => if kv.1 == k then (k, v) else kv)) :=
          List.find?_cons_of_neg _ hm
        have hheadR : List.find? (fun kv : List Char × JsVal => kv.1 == k2) (kv :: fs) =
            List.find? (fun kv : List Char × JsVal => kv.1 == k2) fs :=
          List.find?_cons_of_neg _ hm
        rw [hheadL, hheadR]
        exact ih

theorem lookupField_setField_self (fs : List (List Char × JsVal)) (k : List Char)
    (v : JsVal) : lookupField (setField fs k v) k = some v := by
  unfold setField
  split
  · rename_i hany
    exact lookupField_map_subst fs k v hany
  · unfold lookupField
    rw [List.find?_append]
    rename_i hany
    have h1 : fs.find? (fun kv => kv.1 == k) = none := by
      rw [List.find?_eq_none]
      intro x hx
      intro hpx
      rw [Bool.not_eq_true, List.any_eq_false] at hany
      exact absurd hpx (hany x hx)
    rw [h1]
    simp [List.find?_cons]

theorem lookupField_setField_other (fs : List (List Char × JsVal))
    (k k2 : List Char) (v : JsVal) (h : k2 ≠ k) :
    lookupField (setField fs k v) k2 = lookupField fs k2 := by
  unfold setField
  split
  · exact lookupField_map_subst_other fs k k2 v h
  · unfold lookupField
    rw [List.find?_append]
    have h2 : List.find? (fun kv => kv.1 == k2) [(k, v)] = none := by
      have hne : (k == k2) = false := by
        simp only [beq_eq_false_iff_ne, ne_eq]
        exact fun hh => h hh.symm
      simp [List.find?_cons, hne]
    rw [h2]
    simp

theorem normalizedFrom_addUserAnswerFields (v : Quiz) :
    normalizedFrom v (addUserAnswerFields v) := by
  refine ⟨rfl, rfl, rfl, by simp [addUserAnswerFields], ?_⟩
  intro i vq hvq
  refine ⟨setField (spreadFields vq) (chars "userAnswer") .undefined, ?_, ?_, ?_⟩
  · show (v.questions.map withClearedUserAnswer).get? i = _
    rw [List.get?_map, hvq]
    rfl
  · exact lookupField_setField_self _ _ _
  · intro k2 hk2
    exact lookupField_setField_other _ _ _ _ hk2

/-- C8: every quiz returned by `generateQuiz` or `generateQuizStream` comes
from the validated quiz by clearing `userAnswer` (to `undefined`) on every
question, and this normalization alters no other question field and no header
field. -/
theorem userAnswer_normalization :
    (∀ so q, generateQuizStreamResult so = .ok q →
      ∃ v, so = .ok v ∧ normalizedFrom v q) ∧
    (∀ val q, generateQuizResult val = some q →
      ∃ v, val.data = some v ∧ normalizedFrom v q) := by
  constructor
  · intro so q h
    cases so with
    | ok v =>
      refine ⟨v, rfl, ?_⟩
      have hq : q = addUserAnswerFields v := by
        unfold generateQuizStreamResult at h
        injection h with h
        exact h.symm
      rw [hq]
      exact normalizedFrom_addUserAnswerFields v
    | error e =>
      exfalso
      unfold generateQuizStreamResult at h
      cases h
  · intro val q h
    unfold generateQuizResult at h
    rcases hd : val.data with _ | d
    · rw [hd] at h; cases h
    · rw [hd] at h
      have h2 : (if val.isValid = true then some (addUserAnswerFields d) else none) =
          some q := h
      by_cases hv : val.isValid = true
      · rw [if_pos hv] at h2
        injection h2 with h2
        exact ⟨d, rfl, h2 ▸ normalizedFrom_addUserAnswerFields d⟩
      · rw [if_neg hv] at h2; cases h2

theorem userAnswer_normalization_witness :
    ∃ v, (Except.ok quizC8 : Except StreamError Quiz) = .ok v ∧
      normalizedFrom v (addUserAnswerFields quizC8) :=
  userAnswer_normalization.1 (.ok quizC8) (addUserAnswerFields quizC8) rfl

/-! ## The per-item segmenter: marker stability under appended text -/

theorem indexOfSubAux_length_le (pat : List Char) :
    ∀ (s : List Char) (i j : Nat), indexOfSubAux pat s i = some j →
      pat.length ≤ s.length := by
  intro s
  induction s with
  | nil =>
    intro i j h
    unfold indexOfSubAux at h
    split at h
    · rename_i hp
      have hpat : pat = [] := by
        simpa using List.isPrefixOf_iff_prefix.mp hp
      simp [hpat]
    · cases h
  | cons a s ih =>
    intro i j h
    unfold indexOfSubAux at h
    split at h
    · rename_i hp
      exact (List.isPrefixOf_iff_prefix.mp hp).length_le
    · exact Nat.le_trans (ih (i + 1) j h) (by simp)

theorem prefix_of_append_of_length_le {pat s t : List Char}
    (h : pat <+: s ++ t) (hlen : pat.length ≤ s.length) : pat <+: s := by
  rw [List.prefix_iff_eq_take] at h ⊢
  rwa [List.take_append_of_le_length hlen] at h

theorem indexOfSubAux_append (pat : List Char) :
    ∀ (s t : List Char) (i j : Nat), indexOfSubAux pat s i = some j →
      indexOfSubAux pat (s ++ t) i = some j := by
  intro s
  induction s with
  | nil =>
    intro t i j h
    unfold indexOfSubAux at h
    split at h
    · rename_i hp
      have hpat : pat = [] := by
        simpa using List.isPrefixOf_iff_prefix.mp hp
      injection h with h
      subst h
      subst hpat
      cases t with
      | nil => rfl
      | cons b t2 =>
        show indexOfSubAux [] (b :: t2) i = some i
        unfold indexOfSubAux
        rw [if_pos (by simp [List.isPrefixOf])]
    · cases h
  | cons a s ih =>
    intro t i j h
    unfold indexOfSubAux at h
    split at h
    · rename_i hp
      injection h with h
      subst h
      show indexOfSubAux pat (a :: (s ++ t)) i = some i
      unfold indexOfSubAux
      have hpre : pat.isPrefixOf (a :: (s ++ t)) = true :=
        List.isPrefixOf_iff_prefix.mpr
          ((List.isPrefixOf_iff_prefix.mp hp).trans (List.prefix_append _ _))
      simp [hpre]
    · rename_i hp
      show indexOfSubAux pat (a :: (s ++ t)) i = some j
      unfold indexOfSubAux
      have hnp : pat.isPrefixOf (a :: (s ++ t)) = false := by
        rw [Bool.eq_false_iff]
        intro hcontra
        have hlen : pat.length ≤ s.length := indexOfSubAux_length_le pat s (i + 1) j h
        have hpre : pat <+: (a :: s) :=
          prefix_of_append_of_length_le (List.isPrefixOf_iff_prefix.mp hcontra)
            (by simp; omega)
        exact hp (List.isPrefixOf_iff_prefix.mpr hpre)
      simp only [hnp]
      simpa using ih t (i + 1) j h

theorem indexOfSub_append (s t pat : List Char) (j : Nat)
    (h : indexOfSub s pat = some j) : indexOfSub (s ++ t) pat = some j :=
  indexOfSubAux_append pat s t 0 j h

theorem indexOfSubAux_bound (pat : List Char) :
    ∀ (s : List Char) (i j : Nat), indexOfSubAux pat s i = some j →
      i ≤ j ∧ (j - i) + pat.length ≤ s.length := by
  intro s
  induction s with
  | nil =>
    intro i j h
    unfold indexOfSubAux at h
    split at h
    · rename_i hp
      have hpat : pat = [] := by
        simpa using List.isPrefixOf_iff_prefix.mp hp
      injection h with h
      subst h
      simp [hpat]
    · cases h
  | cons a s ih =>
    intro i j h
    unfold indexOfSubAux at h
    split at h
    · rename_i hp
      injection h with h
      subst h
      have hle := (List.isPrefixOf_iff_prefix.mp hp).length_le
      simp at hle ⊢
      omega
    · obtain ⟨h1, h2⟩ := ih (i + 1) j h
      refine ⟨by omega, ?_⟩
      simp [List.length_cons]
      omega

theorem indexOfSub_bound (s pat : List Char) (j : Nat)
    (h : indexOfSub s pat = some j) : j + pat.length ≤ s.length := by
  obtain ⟨h1, h2⟩ := indexOfSubAux_bound pat s 0 j h
  omega

/-! ## The segmenter automaton under appended text -/

theorem autoStep_questionStart (i : Nat) (c : Char) (a : AutoState) :
    (autoStep i c a).questionStart = a.questionStart ∨
    (autoStep i c a).questionStart = -1 ∨
    (autoStep i c a).questionStart = (i : Int) := by
  simp only [autoStep]
  split_ifs <;> simp

theorem autoStep_questionStart_le (i : Nat) (c : Char) (a : AutoState)
    (h : a.questionStart.toNat ≤ i) :
    (autoStep i c a).questionStart.toNat ≤ i + 1 := by
  rcases autoStep_questionStart i c a with he | he | he <;> rw [he]
  · omega
  · simp
  · simp

theorem segStep_auto (qc : List Char) (i : Nat) (c : Char) (st : SegState) :
    (segStep qc i c st).auto = autoStep i c st.auto := by
  simp only [segStep]
  split
  · split
    · split <;> rfl
    · rfl
  · rfl

theorem segStep_extend (qc ext : List Char) (i : Nat) (c : Char) (st : SegState)
    (hle : i + 1 ≤ qc.length) (hqs : st.auto.questionStart.toNat ≤ i) :
    segStep (qc ++ ext) i c st = segStep qc i c st := by
  have hslice : sliceList (qc ++ ext) st.auto.questionStart.toNat (i + 1) =
      sliceList qc st.auto.questionStart.toNat (i + 1) := by
    unfold sliceList
    rw [List.drop_append_of_le_length (by omega)]
    rw [List.take_append_of_le_length (by simp [List.length_drop]; omega)]
  simp only [segStep]
  rw [hslice]

theorem segLoop_auto (qc : List Char) :
    ∀ (cs : List Char) (i : Nat) (st : SegState),
      (segLoop qc cs i st).auto = autoRun cs i st.auto := by
  intro cs
  induction cs with
  | nil => intro i st; rfl
  | cons c cs ih =>
    intro i st
    show (segLoop qc cs (i + 1) (segStep qc i c st)).auto =
      autoRun cs (i + 1) (autoStep i c st.auto)
    rw [ih (i + 1) (segStep qc i c st), segStep_auto]

theorem segLoop_extend (qc ext : List Char) :
    ∀ (cs ds : List Char) (i : Nat) (st : SegState),
      i + cs.length ≤ qc.length → st.auto.questionStart.toNat ≤ i →
      segLoop (qc ++ ext) (cs ++ ds) i st =
        segLoop (qc ++ ext) ds (i + cs.length) (segLoop qc cs i st) := by
  intro cs
  induction cs with
  | nil => intro ds i st _ _; simp [segLoop]
  | cons c cs ih =>
    intro ds i st hlen hqs
    have hlen1 : i + 1 ≤ qc.length := by simp [List.length_cons] at hlen; omega
    have hlen2 : (i + 1) + cs.length ≤ qc.length := by
      simp [List.length_cons] at hlen; omega
    have hq2 : (segStep qc i c st).auto.questionStart.toNat ≤ i + 1 := by
      rw [segStep_auto]
      exact autoStep_questionStart_le i c st.auto hqs
    show segLoop (qc ++ ext) (cs ++ ds) (i + 1) (segStep (qc ++ ext) i c st) =
      segLoop (qc ++ ext) ds (i + (c :: cs).length)
        (segLoop qc cs (i + 1) (segStep qc i c st))
    rw [segStep_extend qc ext i c st hlen1 hqs,
      ih ds (i + 1) (segStep qc i c st) hlen2 hq2,
      show i + (c :: cs).length = (i + 1) + cs.length from by
        simp [List.length_cons]; omega]

theorem segStep_complete (qc : List Char) (i : Nat) (c : Char) (st : SegState) :
    ∃ l0, (segStep qc i c st).complete = st.complete ++ l0 := by
  simp only [segStep]
  split
  · split
    · split
      · exact ⟨[_], rfl⟩
      · exact ⟨[], by simp⟩
    · exact ⟨[], by simp⟩
  · exact ⟨[], by simp⟩

theorem segLoop_complete_prefix (qc : List Char) :
    ∀ (cs : List Char) (i : Nat) (st : SegState),
      ∃ l, (segLoop qc cs i st).complete = st.complete ++ l := by
  intro cs
  induction cs with
  | nil => intro i st; exact ⟨[], by simp [segLoop]⟩
  | cons c cs ih =>
    intro i st
    obtain ⟨l, hl⟩ := ih (i + 1) (segStep qc i c st)
    obtain ⟨l0, hl0⟩ := segStep_complete qc i c st
    refine ⟨l0 ++ l, ?_⟩
    show (segLoop qc cs (i + 1) (segStep qc i c st)).complete = _
    rw [hl, hl0, List.append_assoc]

/-- C5: segmenter monotonic completeness — once `extractCompleteQuestions`
reports a question object at index `i` of `completeQuestions`, re-running it
on the buffer extended with any appended text still reports the identical
object at index `i`. -/
theorem segmenter_monotonic (b t : List Char) (i : Nat) (q : JsVal)
    (h : (extractCompleteQuestions b).completeQuestions.get? i = some q) :
    (extractCompleteQuestions (b ++ t)).completeQuestions.get? i = some q := by
  unfold extractCompleteQuestions at h ⊢
  rcases hidx : indexOfSub b (chars "\"questions\": [") with _ | qs
  · rw [hidx] at h
    have h2 : ([] : List JsVal).get? i = some q := h
    simp at h2
  · rw [hidx] at h
    have h2 : (segLoop (b.drop (qs + 14)) (b.drop (qs + 14)) 0
        ⟨⟨0, false, -1, false⟩, [], 0⟩).complete.get? i = some q := h
    have hidx2 : indexOfSub (b ++ t) (chars "\"questions\": [") = some qs :=
      indexOfSub_append b t _ qs hidx
    rw [hidx2]
    have hpat : (chars "\"questions\": [").length = 14 := rfl
    have hbound : qs + 14 ≤ b.length := by
      have := indexOfSub_bound b (chars "\"questions\": [") qs hidx
      omega
    have hdrop : (b ++ t).drop (qs + 14) = b.drop (qs + 14) ++ t :=
      List.drop_append_of_le_length hbound
    show (segLoop ((b ++ t).drop (qs + 14)) ((b ++ t).drop (qs + 14)) 0
        ⟨⟨0, false, -1, false⟩, [], 0⟩).complete.get? i = some q
    rw [hdrop]
    have hsplit := segLoop_extend (b.drop (qs + 14)) t (b.drop (qs + 14)) t 0
      ⟨⟨0, false, -1, false⟩, [], 0⟩ (by simp) (by simp)
    simp only [Nat.zero_add] at hsplit
    rw [hsplit]
    obtain ⟨l, hl⟩ := segLoop_complete_prefix (b.drop (qs + 14) ++ t) t
      (b.drop (qs + 14)).length
      (segLoop (b.drop (qs + 14)) (b.drop (qs + 14)) 0 ⟨⟨0, false, -1, false⟩, [], 0⟩)
    rw [hl]
    have hlt : i < (segLoop (b.drop (qs + 14)) (b.drop (qs + 14)) 0
        ⟨⟨0, false, -1, false⟩, [], 0⟩).complete.length :=
      (List.get?_eq_some.mp h2).1
    rw [List.get?_append hlt]
    exact h2

set_option maxRecDepth 4000 in
theorem segmenter_monotonic_witness :
    (extractCompleteQuestions (bC5 ++ tC5)).completeQuestions.get? 0 = some qC5 :=
  segmenter_monotonic bC5 tC5 0 qC5 (by rfl)

/-! ## Per-item acceptance (C6) -/

theorem segStep_complete_spec (qc : List Char) (i : Nat) (c : Char) (st : SegState) :
    (segStep qc i c st).complete = st.complete ++
      (if closesQuestion c st.auto then
        (acceptedQuestion (sliceList qc st.auto.questionStart.toNat (i + 1))).toList
      else []) := by
  simp only [segStep]
  by_cases hev : closesQuestion c st.auto = true
  · rw [if_pos hev, if_pos hev]
    unfold acceptedQuestion
    rcases hp : jsonParse (sliceList qc st.auto.questionStart.toNat (i + 1)) with _ | v
    · simp
    · by_cases hacc : questionAccepted v = true
      · simp [hacc]
      · have hacc2 : questionAccepted v = false := Bool.eq_false_iff.mpr hacc
        simp [hacc2]
  · rw [if_neg hev, if_neg hev]
    simp

theorem segLoop_complete_spec (qc : List Char) :
    ∀ (cs : List Char) (i : Nat) (st : SegState),
      (segLoop qc cs i st).complete =
        st.complete ++ (consumedSegments qc cs i st.auto).filterMap acceptedQuestion := by
  intro cs
  induction cs with
  | nil => intro i st; simp [segLoop, consumedSegments]
  | cons c cs ih =>
    intro i st
    show (segLoop qc cs (i + 1) (segStep qc i c st)).complete = _
    rw [ih (i + 1) (segStep qc i c st), segStep_auto, segStep_complete_spec]
    rw [show consumedSegments qc (c :: cs) i st.auto =
      (if closesQuestion c st.auto then
        [sliceList qc st.auto.questionStart.toNat (i + 1)] else []) ++
        consumedSegments qc cs (i + 1) (autoStep i c st.auto) from rfl]
    rw [List.filterMap_append, List.append_assoc]
    by_cases hev : closesQuestion c st.auto = true
    · rw [if_pos hev, if_pos hev]
      rcases hq : acceptedQuestion (sliceList qc st.auto.questionStart.toNat (i + 1))
        with _ | v
      · simp [List.filterMap_cons, hq]
      · simp [List.filterMap_cons, hq]
    · rw [if_neg hev, if_neg hev]
      simp

/-- C6: per-item acceptance of the segmenter — the `completeQuestions` list
equals the specification-side reading (the substrings consumed as balanced
top-level objects by the string/escape-aware scan, filtered to those that
parse as JSON and carry truthy `id`, `type` and `question` fields; all other
consumed substrings are silently dropped), and the partial question derives
only from the trailing still-open object of the automaton run, so a dropped
balanced object never reappears there.  Both sides are total functions — no
error is produced. -/
theorem segmenter_accept_filter (content : List Char) :
    (extractCompleteQuestions content).completeQuestions =
      specCompleteQuestions content ∧
    (extractCompleteQuestions content).partialQuestion =
      specPartialQuestion content := by
  unfold extractCompleteQuestions specCompleteQuestions specPartialQuestion
  rcases hidx : indexOfSub content (chars "\"questions\": [") with _ | qs
  · exact ⟨rfl, rfl⟩
  · constructor
    · show (segLoop (content.drop (qs + 14)) (content.drop (qs + 14)) 0
        ⟨⟨0, false, -1, false⟩, [], 0⟩).complete = _
      rw [segLoop_complete_spec]
      simp
    · show partialFromTail (content.drop (qs + 14))
          (segLoop (content.drop (qs + 14)) (content.drop (qs + 14)) 0
            ⟨⟨0, false, -1, false⟩, [], 0⟩).auto.questionStart = _
      rw [segLoop_auto]

end QuAIz
